import Mathlib

/-!
Verification development for the sdworx calendar consolidation scripts
(`sdworx_calendar_merger.py` and `sdworx_calendar_expender.py`).

Strings are modelled as `List Char`.  Calendar dates are modelled as civil
(year, month, day) triples with the arithmetic of Python's `datetime.date`
(proleptic Gregorian calendar, years 1..9999, `weekday()` with Monday = 0,
`toordinal()` with 0001-01-01 = 1).  Events are modelled as ordered
association lists, matching `collections.OrderedDict`.  Operations that can
raise a Python exception (`KeyError`, `ValueError`, `OverflowError`, a
`strptime` failure, or calling a method on `None`) are modelled with
`Option`, `none` standing for the raised exception.
-/

set_option maxHeartbeats 1000000

namespace SDWC

abbrev Str := List Char

/-- ASCII digit test (as used by the regex character class `[0-9]`). -/
def isDigitC (c : Char) : Bool := 48 ≤ c.toNat && c.toNat ≤ 57

def digitVal (c : Char) : Nat := c.toNat - 48

def digitChar (n : Nat) : Char := Char.ofNat (48 + n % 10)

/-- Decimal digits of a natural number (helper for `str(n)` in Python).
The first argument is fuel; `natChars` supplies enough of it. -/
def natCharsAux : Nat → Nat → Str
  | 0, _ => []
  | fuel + 1, n => if n < 10 then [digitChar n] else natCharsAux fuel (n / 10) ++ [digitChar n]

def natChars (n : Nat) : Str := natCharsAux (n + 1) n

/-- Python `str()` of an integer. -/
def intChars (i : Int) : Str :=
  if i < 0 then '-' :: natChars i.natAbs else natChars i.toNat

/-- Parse a string of decimal digits (used for `int(...)` on digit strings). -/
def charsToNat (l : Str) : Nat := l.foldl (fun a c => a * 10 + digitVal c) 0

/-! ## Civil dates (Python `datetime.date` semantics) -/

structure Date where
  y : Nat
  m : Nat
  d : Nat
  deriving DecidableEq, Repr

def isLeap (y : Nat) : Bool := (y % 4 == 0 && y % 100 != 0) || y % 400 == 0

def daysInMonth (y : Nat) (m : Nat) : Nat :=
  match m with
  | 1 => 31 | 2 => if isLeap y then 29 else 28 | 3 => 31 | 4 => 30
  | 5 => 31 | 6 => 30 | 7 => 31 | 8 => 31
  | 9 => 30 | 10 => 31 | 11 => 30 | 12 => 31
  | _ => 0

def daysBeforeMonthBase : Nat → Nat
  | 1 => 0 | 2 => 31 | 3 => 59 | 4 => 90 | 5 => 120 | 6 => 151
  | 7 => 181 | 8 => 212 | 9 => 243 | 10 => 273 | 11 => 304 | 12 => 334
  | _ => 0

/-- Days of year `y` that precede month `m`. -/
def daysBeforeMonth (y m : Nat) : Nat :=
  daysBeforeMonthBase m + (if 3 ≤ m ∧ isLeap y = true then 1 else 0)

/-- Days that precede January 1 of year `y` (ordinal of Dec 31 of year `y-1`). -/
def daysBeforeYear (y : Nat) : Nat :=
  365 * (y - 1) + (y - 1) / 4 + (y - 1) / 400 - (y - 1) / 100

/-- Python `date.toordinal()`: 0001-01-01 has ordinal 1. -/
def toOrdinal : Date → Nat
  | ⟨y, m, d⟩ => daysBeforeYear y + daysBeforeMonth y m + d

/-- Python `date.weekday()`: Monday is 0.  0001-01-01 is a Monday. -/
def weekdayOf (t : Date) : Nat := (toOrdinal t + 6) % 7

/-- The dates representable by Python's `datetime` (year 1..9999, valid
month and day-of-month). -/
def Date.Valid : Date → Prop
  | ⟨y, m, d⟩ => 1 ≤ y ∧ y ≤ 9999 ∧ 1 ≤ m ∧ m ≤ 12 ∧ 1 ≤ d ∧ d ≤ daysInMonth y m

instance dateValidDecidable : (t : Date) → Decidable t.Valid
  | ⟨_, _, _⟩ => inferInstanceAs (Decidable (_ ∧ _))

def minDate : Date := ⟨1, 1, 1⟩
def maxDate : Date := ⟨9999, 12, 31⟩

/-- `date + timedelta(days=1)`, calendar-correct month/year rollover. -/
def nextDay : Date → Date
  | ⟨y, m, d⟩ =>
    if d < daysInMonth y m then ⟨y, m, d + 1⟩
    else if m < 12 then ⟨y, m + 1, 1⟩
    else ⟨y + 1, 1, 1⟩

/-- `date - timedelta(days=1)`, calendar-correct month/year rollover. -/
def prevDay : Date → Date
  | ⟨y, m, d⟩ =>
    if 1 < d then ⟨y, m, d - 1⟩
    else if 1 < m then ⟨y, m - 1, daysInMonth y (m - 1)⟩
    else ⟨y - 1, 12, 31⟩

/-- `strftime("%Y%m%d")`: zero-padded 4+2+2 decimal digits. -/
def formatDate : Date → Str
  | ⟨y, m, d⟩ =>
    [digitChar (y / 1000), digitChar (y / 100), digitChar (y / 10), digitChar y,
     digitChar (m / 10), digitChar m, digitChar (d / 10), digitChar d]

/-- `datetime.strptime(value, "%Y%m%d")`: exactly 8 digits forming a valid date;
`none` models the raised `ValueError`. -/
def parseDate : Str → Option Date
  | [c1, c2, c3, c4, c5, c6, c7, c8] =>
    if isDigitC c1 && isDigitC c2 && isDigitC c3 && isDigitC c4 &&
       isDigitC c5 && isDigitC c6 && isDigitC c7 && isDigitC c8 then
      let t : Date := ⟨((digitVal c1 * 10 + digitVal c2) * 10 + digitVal c3) * 10 + digitVal c4,
                       digitVal c5 * 10 + digitVal c6,
                       digitVal c7 * 10 + digitVal c8⟩
      if t.Valid then some t else none
    else none
  | _ => none

/-! ### Date lemmas -/

theorem digitVal_digitChar (k : Nat) : digitVal (digitChar k) = k % 10 := by
  have h : ∀ j, j < 10 → digitVal (digitChar j) = j := by decide
  have h2 := h (k % 10) (Nat.mod_lt _ (by omega))
  simpa [digitChar, Nat.mod_mod_of_dvd] using h2

theorem isDigitC_digitChar (k : Nat) : isDigitC (digitChar k) = true := by
  have h : ∀ j, j < 10 → isDigitC (digitChar j) = true := by decide
  have h2 := h (k % 10) (Nat.mod_lt _ (by omega))
  simpa [digitChar] using h2

theorem daysInMonth_le_31 {y m : Nat} : daysInMonth y m ≤ 31 := by
  rcases m with _ | _ | _ | _ | _ | _ | _ | _ | _ | _ | _ | _ | _ <;>
    simp [daysInMonth] <;> split <;> omega

theorem one_le_daysInMonth {y m : Nat} (h1 : 1 ≤ m) (h2 : m ≤ 12) :
    1 ≤ daysInMonth y m := by
  interval_cases m <;> simp [daysInMonth] <;> split <;> omega

theorem parseDate_formatDate (t : Date) (ht : t.Valid) :
    parseDate (formatDate t) = some t := by
  obtain ⟨y, m, d⟩ := t
  obtain ⟨h1, h2, h3, h4, h5, h6⟩ := ht
  have h31 : daysInMonth y m ≤ 31 := daysInMonth_le_31
  simp only [formatDate, parseDate, isDigitC_digitChar, Bool.and_self, if_true]
  have hy : ((digitVal (digitChar (y / 1000)) * 10 + digitVal (digitChar (y / 100))) * 10 +
      digitVal (digitChar (y / 10))) * 10 + digitVal (digitChar y) = y := by
    simp only [digitVal_digitChar]; omega
  have hm : digitVal (digitChar (m / 10)) * 10 + digitVal (digitChar m) = m := by
    simp only [digitVal_digitChar]; omega
  have hd : digitVal (digitChar (d / 10)) * 10 + digitVal (digitChar d) = d := by
    simp only [digitVal_digitChar]; omega
  rw [if_pos]
  · simp only [hy, hm, hd]
  · simp only [hy, hm, hd]
    exact ⟨h1, h2, h3, h4, h5, h6⟩

theorem formatDate_inj {a b : Date} (ha : a.Valid) (hb : b.Valid)
    (h : formatDate a = formatDate b) : a = b := by
  have h1 := parseDate_formatDate a ha
  have h2 := parseDate_formatDate b hb
  rw [h] at h1
  rw [h1] at h2
  exact Option.some_inj.mp h2

theorem daysBeforeMonth_succ {y m : Nat} (h1 : 1 ≤ m) (h2 : m ≤ 11) :
    daysBeforeMonth y (m + 1) = daysBeforeMonth y m + daysInMonth y m := by
  by_cases hb : isLeap y = true <;>
    interval_cases m <;>
      simp [daysBeforeMonth, daysBeforeMonthBase, daysInMonth, hb]

theorem daysBeforeYear_succ (y : Nat) (hy : 1 ≤ y) :
    daysBeforeYear (y + 1) = daysBeforeYear y + 365 + (if isLeap y = true then 1 else 0) := by
  have hiff : isLeap y = true ↔ ((y % 4 = 0 ∧ y % 100 ≠ 0) ∨ y % 400 = 0) := by
    simp [isLeap]
  by_cases hb : isLeap y = true
  · have hc : (y % 4 = 0 ∧ y % 100 ≠ 0) ∨ y % 400 = 0 := hiff.mp hb
    rw [if_pos hb]
    unfold daysBeforeYear
    omega
  · have hc : ¬ ((y % 4 = 0 ∧ y % 100 ≠ 0) ∨ y % 400 = 0) := fun hcc => hb (hiff.mpr hcc)
    rw [if_neg hb]
    unfold daysBeforeYear
    omega

theorem nextDay_valid {t : Date} (ht : t.Valid) (hmax : t ≠ maxDate) :
    (nextDay t).Valid := by
  obtain ⟨y, m, d⟩ := t
  obtain ⟨h1, h2, h3, h4, h5, h6⟩ := ht
  show Date.Valid (if d < daysInMonth y m then ⟨y, m, d + 1⟩
    else if m < 12 then ⟨y, m + 1, 1⟩ else ⟨y + 1, 1, 1⟩)
  by_cases hd : d < daysInMonth y m
  · rw [if_pos hd]
    exact ⟨h1, h2, h3, h4, by omega, by omega⟩
  · rw [if_neg hd]
    by_cases hm : m < 12
    · rw [if_pos hm]
      have hone := @one_le_daysInMonth y (m + 1) (by omega) (by omega)
      exact ⟨h1, h2, by omega, by omega, le_refl 1, hone⟩
    · rw [if_neg hm]
      have hm12 : m = 12 := by omega
      have hy9999 : y ≠ 9999 := by
        intro hy
        apply hmax
        have hdim : daysInMonth y m = 31 := by subst hm12; simp [daysInMonth]
        have hd31 : d = 31 := by omega
        simp [maxDate, hy, hm12, hd31]
      have hjan : daysInMonth (y + 1) 1 = 31 := by simp [daysInMonth]
      exact ⟨by omega, by omega, le_refl 1, by omega, le_refl 1, by rw [hjan]; omega⟩

theorem prevDay_valid {t : Date} (ht : t.Valid) (hmin : t ≠ minDate) :
    (prevDay t).Valid := by
  obtain ⟨y, m, d⟩ := t
  obtain ⟨h1, h2, h3, h4, h5, h6⟩ := ht
  show Date.Valid (if 1 < d then ⟨y, m, d - 1⟩
    else if 1 < m then ⟨y, m - 1, daysInMonth y (m - 1)⟩ else ⟨y - 1, 12, 31⟩)
  by_cases hd : 1 < d
  · rw [if_pos hd]
    exact ⟨h1, h2, h3, h4, by omega, by omega⟩
  · rw [if_neg hd]
    by_cases hm : 1 < m
    · rw [if_pos hm]
      have hone := @one_le_daysInMonth y (m - 1) (by omega) (by omega)
      exact ⟨h1, h2, by omega, by omega, hone, le_refl _⟩
    · rw [if_neg hm]
      have hm1 : m = 1 := by omega
      have hd1 : d = 1 := by omega
      have hy1 : y ≠ 1 := by
        intro hy
        exact hmin (by simp [minDate, hy, hm1, hd1])
      have hdec : daysInMonth (y - 1) 12 = 31 := by simp [daysInMonth]
      exact ⟨by omega, by omega, by omega, by omega, by omega, by rw [hdec]⟩

theorem nextDay_prevDay {t : Date} (ht : t.Valid) (hmin : t ≠ minDate) :
    nextDay (prevDay t) = t := by
  obtain ⟨y, m, d⟩ := t
  obtain ⟨h1, h2, h3, h4, h5, h6⟩ := ht
  show nextDay (if 1 < d then ⟨y, m, d - 1⟩
    else if 1 < m then ⟨y, m - 1, daysInMonth y (m - 1)⟩ else ⟨y - 1, 12, 31⟩) = _
  by_cases hd : 1 < d
  · rw [if_pos hd]
    show (if d - 1 < daysInMonth y m then (⟨y, m, d - 1 + 1⟩ : Date)
      else if m < 12 then ⟨y, m + 1, 1⟩ else ⟨y + 1, 1, 1⟩) = _
    rw [if_pos (by omega)]
    rw [Date.mk.injEq]
    omega
  · rw [if_neg hd]
    have hd1 : d = 1 := by omega
    by_cases hm : 1 < m
    · rw [if_pos hm]
      show (if daysInMonth y (m - 1) < daysInMonth y (m - 1) then
          (⟨y, m - 1, daysInMonth y (m - 1) + 1⟩ : Date)
        else if m - 1 < 12 then ⟨y, m - 1 + 1, 1⟩ else ⟨y + 1, 1, 1⟩) = _
      rw [if_neg (by omega), if_pos (by omega)]
      rw [Date.mk.injEq]
      omega
    · rw [if_neg hm]
      have hm1 : m = 1 := by omega
      have hy1 : y ≠ 1 := fun hy => hmin (by simp [minDate, hy, hm1, hd1])
      have h31 : daysInMonth (y - 1) 12 = 31 := by simp [daysInMonth]
      show (if 31 < daysInMonth (y - 1) 12 then (⟨y - 1, 12, 32⟩ : Date)
        else if (12 : Nat) < 12 then ⟨y - 1, 13, 1⟩ else ⟨y - 1 + 1, 1, 1⟩) = _
      rw [if_neg (by omega), if_neg (by omega)]
      rw [Date.mk.injEq]
      omega

theorem prevDay_nextDay {t : Date} (ht : t.Valid) :
    prevDay (nextDay t) = t := by
  obtain ⟨y, m, d⟩ := t
  obtain ⟨h1, h2, h3, h4, h5, h6⟩ := ht
  show prevDay (if d < daysInMonth y m then ⟨y, m, d + 1⟩
    else if m < 12 then ⟨y, m + 1, 1⟩ else ⟨y + 1, 1, 1⟩) = _
  by_cases hd : d < daysInMonth y m
  · rw [if_pos hd]
    show (if 1 < d + 1 then (⟨y, m, d + 1 - 1⟩ : Date)
      else if 1 < m then ⟨y, m - 1, daysInMonth y (m - 1)⟩ else ⟨y - 1, 12, 31⟩) = _
    rw [if_pos (by omega)]
    rw [Date.mk.injEq]
    omega
  · rw [if_neg hd]
    by_cases hm : m < 12
    · rw [if_pos hm]
      show (if (1 : Nat) < 1 then (⟨y, m + 1, 0⟩ : Date)
        else if 1 < m + 1 then ⟨y, m + 1 - 1, daysInMonth y (m + 1 - 1)⟩
        else ⟨y - 1, 12, 31⟩) = _
      rw [if_neg (by omega), if_pos (by omega)]
      have hmm : m + 1 - 1 = m := by omega
      rw [hmm]
      rw [Date.mk.injEq]
      exact ⟨rfl, rfl, by omega⟩
    · rw [if_neg hm]
      have hm12 : m = 12 := by omega
      have hd31 : d = 31 := by
        have hdim : daysInMonth y m = 31 := by subst hm12; simp [daysInMonth]
        omega
      show (if (1 : Nat) < 1 then (⟨y + 1, 1, 0⟩ : Date)
        else if (1 : Nat) < 1 then ⟨y + 1, 0, daysInMonth (y + 1) 0⟩
        else ⟨y + 1 - 1, 12, 31⟩) = _
      rw [if_neg (by omega), if_neg (by omega)]
      rw [Date.mk.injEq]
      omega

theorem toOrdinal_nextDay {t : Date} (ht : t.Valid) :
    toOrdinal (nextDay t) = toOrdinal t + 1 := by
  obtain ⟨y, m, d⟩ := t
  obtain ⟨h1, h2, h3, h4, h5, h6⟩ := ht
  show toOrdinal (if d < daysInMonth y m then ⟨y, m, d + 1⟩
    else if m < 12 then ⟨y, m + 1, 1⟩ else ⟨y + 1, 1, 1⟩) = _
  by_cases hd : d < daysInMonth y m
  · rw [if_pos hd]
    show daysBeforeYear y + daysBeforeMonth y m + (d + 1) =
      daysBeforeYear y + daysBeforeMonth y m + d + 1
    omega
  · rw [if_neg hd]
    have hdim : d = daysInMonth y m := by omega
    by_cases hm : m < 12
    · rw [if_pos hm]
      have hsucc := @daysBeforeMonth_succ y m h3 (by omega)
      show daysBeforeYear y + daysBeforeMonth y (m + 1) + 1 =
        daysBeforeYear y + daysBeforeMonth y m + d + 1
      omega
    · rw [if_neg hm]
      have hm12 : m = 12 := by omega
      subst hm12
      have h12 : daysBeforeMonth y 12 = 334 + (if isLeap y = true then 1 else 0) := by
        by_cases hb : isLeap y = true <;>
          simp [daysBeforeMonth, daysBeforeMonthBase, hb]
      have hsy := daysBeforeYear_succ y h1
      have hdim31 : daysInMonth y 12 = 31 := by simp [daysInMonth]
      have hjan : daysBeforeMonth (y + 1) 1 = 0 := by simp [daysBeforeMonth, daysBeforeMonthBase]
      show daysBeforeYear (y + 1) + daysBeforeMonth (y + 1) 1 + 1 =
        daysBeforeYear y + daysBeforeMonth y 12 + d + 1
      rw [hjan, hsy, h12]
      omega

theorem prevDay_ne_maxDate {t : Date} (ht : t.Valid) : prevDay t ≠ maxDate := by
  obtain ⟨y, m, d⟩ := t
  obtain ⟨h1, h2, h3, h4, h5, h6⟩ := ht
  have h31 : daysInMonth y m ≤ 31 := daysInMonth_le_31
  show (if 1 < d then (⟨y, m, d - 1⟩ : Date)
    else if 1 < m then ⟨y, m - 1, daysInMonth y (m - 1)⟩ else ⟨y - 1, 12, 31⟩) ≠ maxDate
  by_cases hd : 1 < d
  · rw [if_pos hd]
    intro hcontra
    rw [show maxDate = (⟨9999, 12, 31⟩ : Date) from rfl, Date.mk.injEq] at hcontra
    omega
  · rw [if_neg hd]
    by_cases hm : 1 < m
    · rw [if_pos hm]
      intro hcontra
      rw [show maxDate = (⟨9999, 12, 31⟩ : Date) from rfl, Date.mk.injEq] at hcontra
      omega
    · rw [if_neg hm]
      intro hcontra
      rw [show maxDate = (⟨9999, 12, 31⟩ : Date) from rfl, Date.mk.injEq] at hcontra
      omega

theorem toOrdinal_prevDay {t : Date} (ht : t.Valid) (hmin : t ≠ minDate) :
    toOrdinal (prevDay t) + 1 = toOrdinal t := by
  have h1 := toOrdinal_nextDay (prevDay_valid ht hmin)
  rw [nextDay_prevDay ht hmin] at h1
  omega

/-! ## Text helpers (ASCII, as exercised by the scripts) -/

def squote : Char := Char.ofNat 39

def isUpperC (c : Char) : Bool := 65 ≤ c.toNat && c.toNat ≤ 90

def isLowerC (c : Char) : Bool := 97 ≤ c.toNat && c.toNat ≤ 122

def isAlphaC (c : Char) : Bool := isUpperC c || isLowerC c

def asciiLower (c : Char) : Char := if isUpperC c then Char.ofNat (c.toNat + 32) else c

def asciiUpper (c : Char) : Char := if isLowerC c then Char.ofNat (c.toNat - 32) else c

/-- Python `str.lower()` (ASCII range, which is all the scripts feed it). -/
def lowerStr (l : Str) : Str := l.map asciiLower

/-- Python `str.title()`: a cased character that follows a non-cased character
is uppercased, any other cased character is lowercased (ASCII range). -/
def titleAux : Bool → Str → Str
  | _, [] => []
  | prevAlpha, c :: cs =>
    (if isAlphaC c then (if prevAlpha then asciiLower c else asciiUpper c) else c) ::
      titleAux (isAlphaC c) cs

def titleStr (l : Str) : Str := titleAux false l

/-- `beautify`: title-case, then repair a leading `Am ` / `Pm ` marker
(`re.sub(r'^Am ', "AM ", ...)` and the `Pm` analogue). -/
def beautify (l : Str) : Str :=
  let t := titleStr l
  let t2 := match t with
            | 'A' :: 'm' :: ' ' :: rest => 'A' :: 'M' :: ' ' :: rest
            | _ => t
  match t2 with
  | 'P' :: 'm' :: ' ' :: rest => 'P' :: 'M' :: ' ' :: rest
  | _ => t2

def isSpaceC (c : Char) : Bool :=
  c = ' ' || c = '\t' || c = '\n' || c = '\r' || c = '\x0b' || c = '\x0c'

/-- Python `str.rstrip()`. -/
def rstrip (l : Str) : Str := (l.reverse.dropWhile isSpaceC).reverse

/-- Python `key, value = line.split(":", 1)`: split at the first colon;
`none` models the `ValueError` raised when there is no colon to unpack. -/
def splitColon : Str → Option (Str × Str)
  | [] => none
  | c :: cs =>
    if c = ':' then some ([], cs)
    else (splitColon cs).map fun p => (c :: p.1, p.2)

/-- `re.search(r'^[AP]M ', s)` as a Bool. -/
def startsAMPM : Str → Bool
  | c :: 'M' :: ' ' :: _ => c = 'A' || c = 'P'
  | _ => false

/-! ## The `(Nh)` / `(Nd)` duration-tag regexes

`matchParen units` matches `\(([0-9]+)u\)` (`u ∈ units`) at the head of a
string and returns the digit group and the rest.  The digit run is maximal;
since no unit letter is a digit this is exactly the greedy regex semantics.
`matchSpaced` additionally requires the leading space of `' \([0-9]+[hd]\)'`.
`find…` returns the first match (like `re.findall(...)[0]`), `sub…` replaces
every non-overlapping match left to right (like `re.sub`), `has…` tests for a
match (like `re.search`). -/

def takeDigits : Str → Str × Str
  | [] => ([], [])
  | c :: cs =>
    if isDigitC c then
      let p := takeDigits cs
      (c :: p.1, p.2)
    else ([], c :: cs)

def matchParen (units : List Char) (l : Str) : Option (Str × Str) :=
  match l with
  | [] => none
  | c :: rest =>
    if c = '(' then
      match takeDigits rest with
      | (_, []) => none
      | (ds, u :: rest2) =>
        match rest2 with
        | [] => none
        | c2 :: rest3 =>
          if ds ≠ [] ∧ u ∈ units ∧ c2 = ')' then some (ds, rest3) else none
    else none

def findParen (units : List Char) : Str → Option Str
  | [] => none
  | c :: cs =>
    match matchParen units (c :: cs) with
    | some (ds, _) => some ds
    | none => findParen units cs

def subParenAux (units : List Char) (repl : Str) : Nat → Str → Str
  | 0, l => l
  | _ + 1, [] => []
  | fuel + 1, c :: cs =>
    match matchParen units (c :: cs) with
    | some (_, rest) => repl ++ subParenAux units repl fuel rest
    | none => c :: subParenAux units repl fuel cs

def subParen (units : List Char) (repl : Str) (l : Str) : Str :=
  subParenAux units repl l.length l

def matchSpaced (units : List Char) (l : Str) : Option Str :=
  match l with
  | [] => none
  | c :: rest => if c = ' ' then (matchParen units rest).map (·.2) else none

def hasSpaced (units : List Char) : Str → Bool
  | [] => false
  | c :: cs => (matchSpaced units (c :: cs)).isSome || hasSpaced units cs

def subSpacedAux (units : List Char) (repl : Str) : Nat → Str → Str
  | 0, l => l
  | _ + 1, [] => []
  | fuel + 1, c :: cs =>
    match matchSpaced units (c :: cs) with
    | some rest => repl ++ subSpacedAux units repl fuel rest
    | none => c :: subSpacedAux units repl fuel cs

def subSpaced (units : List Char) (repl : Str) (l : Str) : Str :=
  subSpacedAux units repl l.length l

/-- `replaced_time_key` on a text value:
`re.sub(r'\([0-9]+h\)', '(' + str(hours) + 'h)', value)`. -/
def replacedTimeVal (s : Str) (hours : Int) : Str :=
  subParen ['h'] ('(' :: intChars hours ++ ['h', ')']) s

/-- `replace_day_key` on a text value: rewrite every `' \([0-9]+[hd]\)'` tag to
`' (<days>d)'`, or append the tag when no such tag occurs. -/
def replaceDayVal (s : Str) (days : Int) : Str :=
  let daysStr := ' ' :: '(' :: intChars days ++ ['d', ')']
  if hasSpaced ['h', 'd'] s then subSpaced ['h', 'd'] daysStr s
  else s ++ daysStr

/-- `get_num_parenthesis(value, key)`: first `\(([0-9]+)key\)` group,
clamped with `max(1, ...)`; `0` when there is no match. -/
def get_num_parenthesis (value : Str) (key : Char) : Nat :=
  match findParen [key] value with
  | some ds => max 1 (charsToNat ds)
  | none => 0

def get_hours (value : Str) : Nat := get_num_parenthesis value 'h'

def get_days (value : Str) : Nat := get_num_parenthesis value 'd'

/-! ## Events (`collections.OrderedDict` of field name to value)

`__EXTRA__` holds a Python list; every other field holds a string, so the
value type distinguishes the two.  `none` results model raised exceptions. -/

inductive FVal where
  | s (v : Str)
  | l (items : List Str)
  deriving DecidableEq, Repr

abbrev Event := List (Str × FVal)

def getF : Event → Str → Option FVal
  | [], _ => none
  | (k', v) :: rest, k => if k' = k then some v else getF rest k

def getS (e : Event) (k : Str) : Option Str :=
  match getF e k with
  | some (.s v) => some v
  | _ => none

def hasF (e : Event) (k : Str) : Bool := (getF e k).isSome

/-- `event[k] = v`: overwrite in place, else append (OrderedDict semantics). -/
def setF : Event → Str → FVal → Event
  | [], k, v => [(k, v)]
  | (k', v') :: rest, k, v =>
    if k' = k then (k, v) :: rest else (k', v') :: setF rest k v

/-- `event.pop(k)` for a present key / `del event[k]`. -/
def popF (e : Event) (k : Str) : Event := e.filter (fun p => ¬ p.1 = k)

/-- `event.move_to_end(k)`: `none` models the `KeyError` on an absent key. -/
def moveToEnd (e : Event) (k : Str) : Option Event :=
  match getF e k with
  | none => none
  | some v => some (popF e k ++ [(k, v)])

def lastKey (e : Event) : Option Str := (e.map (·.1)).getLast?

def keysOf (e : Event) : List Str := e.map (·.1)

/-- A well-formed `(Nu)` duration tag body: `'(' ds u ')'` with `ds` a
nonempty digit string. -/
def parenTag (ds : Str) (u : Char) : Str := '(' :: ds ++ [u, ')']

/-- A `' (Nu)'` duration tag with its mandatory leading space. -/
def spacedTag (ds : Str) (u : Char) : Str := ' ' :: parenTag ds u

def DigitStr (ds : Str) : Prop := ds ≠ [] ∧ ∀ c ∈ ds, isDigitC c = true

instance (ds : Str) : Decidable (DigitStr ds) :=
  decidable_of_iff (ds ≠ [] ∧ ∀ c ∈ ds, isDigitC c = true) Iff.rfl

/-- Python `repr` of a string (single quotes; the audit strings the scripts
build contain no quotes or backslashes, so no escaping arises). -/
def pyStrRepr (s : Str) : Str := squote :: s ++ [squote]

/-- Python `str(...)` of a list of strings: `['a', 'b']`. -/
def pyListRepr (items : List Str) : Str :=
  '[' :: (List.intersperse (", ".data) (items.map pyStrRepr)).flatten ++ [']']

/-- Python `str(value)` of a field value. -/
def fvalRepr : FVal → Str
  | .s v => v
  | .l items => pyListRepr items

def kDATE_START : Str := "DTSTART".data
def kDATE_END : Str := "DTEND".data
def kORIG_DATE_START : Str := "ORIGDTSTART".data
def kORIG_DATE_END : Str := "ORIGDTEND".data
def kDESC : Str := "DESCRIPTION".data
def kSUMMARY : Str := "SUMMARY".data
def kEXTRA : Str := "__EXTRA__".data
def kEND : Str := "END".data

/-! ## Merger: date-string utilities (`sdworx_calendar_merger.py`) -/

/-- `date_next_day_str`: format the next day; `none` models a `ValueError`
from `strptime` or the `OverflowError` past 9999-12-31. -/
def date_next_day_str (v : Str) : Option Str := do
  let d ← parseDate v
  if d = maxDate then none else some (formatDate (nextDay d))

/-- `date_prev_day_str`; `none` models `ValueError` / `OverflowError`. -/
def date_prev_day_str (v : Str) : Option Str := do
  let d ← parseDate v
  if d = minDate then none else some (formatDate (prevDay d))

def get_weekday (v : Str) : Option Nat := (parseDate v).map weekdayOf

/-- `is_start_week`: `weekday == MONDAY or weekday > FRIDAY`. -/
def is_start_week (v : Str) : Option Bool :=
  (get_weekday v).map fun w => w == 0 || decide (4 < w)

/-- `is_end_week`: `weekday >= FRIDAY`. -/
def is_end_week (v : Str) : Option Bool :=
  (get_weekday v).map fun w => decide (4 ≤ w)

def get_date_str (e : Event) : Option Str := getS e kDATE_START

def get_date_date (e : Event) : Option Date := do parseDate (← get_date_str e)

/-- `get_last_date_str`: the day before the (exclusive) end date; when the
event has no end date the code logs an error and falls back to the start. -/
def get_last_date_str (e : Event) : Option Str :=
  match getF e kDATE_END with
  | some (.s v) => date_prev_day_str v
  | some (.l _) => none
  | none => get_date_str e

def get_last_date_after_date (e : Event) : Option Date := do
  let s ← get_last_date_str e
  let n ← date_next_day_str s
  parseDate n

def is_same_date (pe ne : Event) : Option Bool := do
  let a ← get_last_date_str pe
  let b ← get_date_str ne
  return a == b

/-- `get_diff_date(prev, new) = (new - prev).days`. -/
def get_diff_date (prevV newV : Str) : Option Int := do
  let dp ← parseDate prevV
  let dn ← parseDate newV
  return (toOrdinal dn : Int) - (toOrdinal dp : Int)

def is_less_a_week (prevV newV : Str) : Option Bool :=
  (get_diff_date prevV newV).map fun d => decide (d < 7)

/-- `is_next_date`: strictly the next calendar day, or within a week across
an end-of-week/start-of-week boundary. -/
def is_next_date (pe ne : Event) : Option Bool := do
  let prevD ← get_last_date_str pe
  let newD ← get_date_str ne
  let nd ← date_next_day_str prevD
  if nd = newD then return true
  else do
    let lw ← is_less_a_week prevD newD
    if lw then do
      let ew ← is_end_week prevD
      if ew then do
        let sw ← is_start_week newD
        return sw
      else return false
    else return false

/-- `get_time`: hours tag, else day tag times 8, else 4 for a half-day
`AM`/`PM` summary, else 8. -/
def get_time (e : Event) : Option Nat := do
  let s ← getS e kSUMMARY
  let hours := get_hours s
  if hours ≠ 0 then return hours
  else
    let days := get_days s
    if days ≠ 0 then return days * 8
    else if startsAMPM s then return 4
    else return 8

def is_full_day (e : Event) : Option Bool := (get_time e).map fun t => decide (7 ≤ t)

/-- `add_extra`: append an audit note to the `__EXTRA__` list (creating it if
needed) and re-position the terminator last. -/
def add_extra (e : Event) (desc extra nb : Str) : Option Event :=
  let note := desc ++ ": ".data ++ extra ++ " [".data ++ nb ++ "]".data
  match getF e kEXTRA with
  | some (.l items) => moveToEnd (setF e kEXTRA (.l (items ++ [note]))) kEND
  | some (.s _) => none
  | none => moveToEnd (setF e kEXTRA (.l [note])) kEND

/-- `replaced_time_str`: rewrite the accumulator's `(Nh)` summary tag to the
summed hours; returns the incoming event's own hours. -/
def replaced_time_str (pe ne : Event) : Option (Event × Nat) := do
  let newTime ← get_time ne
  let prevTime ← get_time pe
  let s ← getS pe kSUMMARY
  let pe1 := setF pe kSUMMARY (.s (replacedTimeVal s ((prevTime + newTime : Nat) : Int)))
  return (pe1, newTime)

/-- `replace_day_str`: rewrite the accumulator's summary tag to the day span
`get_last_date_after_date(new) - get_date_date(prev)`; returns `new`'s start. -/
def replace_day_str (pe ne : Event) : Option (Event × Str) := do
  let la ← get_last_date_after_date ne
  let pd ← get_date_date pe
  let delta : Int := (toOrdinal la : Int) - (toOrdinal pd : Int)
  let s ← getS pe kSUMMARY
  let pe1 := setF pe kSUMMARY (.s (replaceDayVal s delta))
  let r ← get_date_str ne
  return (pe1, r)

/-- `add_time`: same-day merge — sum the hours and append an audit note. -/
def add_time (pe ne : Event) : Option Event := do
  let (pe1, hours) ← replaced_time_str pe ne
  let nd ← getS ne kDESC
  add_extra pe1 "add time".data nd (natChars hours ++ "h".data)

/-- `merge_event`: date-extend merge — adopt `new`'s end date, rewrite the
day-span tag and append an audit note. -/
def merge_event (pe ne : Event) : Option Event := do
  let ev ← getF ne kDATE_END
  let pe0 := setF pe kDATE_END ev
  let (pe1, date) ← replace_day_str pe0 ne
  let nd ← getS ne kDESC
  add_extra pe1 "add date".data nd date

/-- `get_desc`: the description without any `' \([0-9]+[dh]\)'` tag,
lower-cased. -/
def get_desc (e : Event) : Option Str :=
  (getS e kDESC).map fun s => lowerStr (subSpaced ['d', 'h'] [] s)

def is_same_desc (pe ne : Event) : Option Bool := do
  let a ← get_desc pe
  let b ← get_desc ne
  return a == b

/-! ## Merger: normalizer (`clean_event`) -/

/-- Parse `"%Y%m%dT%H%M%SZ"`; the result is the UTC (date, hour, minute,
second).  `none` models the `ValueError`. -/
def parseInstant (v : Str) : Option (Date × Nat × Nat × Nat) :=
  match v with
  | [c1, c2, c3, c4, c5, c6, c7, c8, 'T', h1, h2, m1, m2, s1, s2, 'Z'] => do
    let d ← parseDate [c1, c2, c3, c4, c5, c6, c7, c8]
    if isDigitC h1 && isDigitC h2 && isDigitC m1 && isDigitC m2 &&
       isDigitC s1 && isDigitC s2 then
      let hh := digitVal h1 * 10 + digitVal h2
      let mm := digitVal m1 * 10 + digitVal m2
      let ss := digitVal s1 * 10 + digitVal s2
      if hh < 24 ∧ mm < 60 ∧ ss < 60 then some (d, hh, mm, ss) else none
    else none
  | _ => none

/-- Absolute seconds of an instant (any fixed epoch; only differences are
used, so the choice of epoch is irrelevant). -/
def instantSecs (i : Date × Nat × Nat × Nat) : Int :=
  (toOrdinal i.1 : Int) * 86400 + i.2.1 * 3600 + i.2.2.1 * 60 + i.2.2.2

/-- Day of month of the last Sunday of (y, m). -/
def lastSunday (y m : Nat) : Nat :=
  let dim := daysInMonth y m
  dim - (weekdayOf ⟨y, m, dim⟩ + 1) % 7

/-- Models the external timezone capability (`pytz` Europe/Brussels) on the
UTC instants the script feeds it: CET/CEST with the EU daylight-saving rule
(UTC+2 from 01:00 UTC on the last Sunday of March until 01:00 UTC on the last
Sunday of October, else UTC+1). -/
def brusselsOffsetHours (d : Date) (hh : Nat) : Nat :=
  let startD := lastSunday d.y 3
  let endD := lastSunday d.y 10
  let inDST :=
    (4 ≤ d.m ∧ d.m ≤ 9) ∨
    (d.m = 3 ∧ (startD < d.d ∨ (d.d = startD ∧ 1 ≤ hh))) ∨
    (d.m = 10 ∧ (d.d < endD ∨ (d.d = endD ∧ hh < 1)))
  if inDST then 2 else 1

/-- The Brussels local hour of a UTC instant (`exact_start.hour` after
`astimezone`). -/
def brusselsHour (d : Date) (hh : Nat) : Nat := (hh + brusselsOffsetHours d hh) % 24

/-- `delta.days` and `int(delta.seconds / 3600)` of
`exact_end - exact_start`: Python's `timedelta` is normalised so that
`0 <= seconds < 86400` with floor-division days. -/
def elapsedDaysHours (diff : Int) : Int × Int :=
  (Int.fdiv diff 86400, Int.fmod diff 86400 / 3600)

/-- Lines 130-136 of the merger: `if hours >= 7: days += 1;` then either warn
(`hours > 9`, timezone anomaly, hours kept) or zero the hour remainder.
Returns (days, hours, warning flag). -/
def adjustWholeDay (dh : Int × Int) : Int × Int × Bool :=
  if 7 ≤ dh.2 then
    if 9 < dh.2 then (dh.1 + 1, dh.2, true) else (dh.1 + 1, 0, false)
  else (dh.1, dh.2, false)

def wMore9 : Str := "WARNING: more than 9 hours".data

def wHourly : Str := "WARNING: one day or more but for hourly event".data

/-- `clean_event` lines 107-112: always add an (exclusive) end date, keeping
the terminator last. -/
def clean_default_end (e : Event) : Option Event :=
  if hasF e kDATE_END then pure e
  else do
    let sd ← getS e kDATE_START
    let nd ← date_next_day_str sd
    moveToEnd (setF e kDATE_END (.s nd)) kEND

/-- `clean_event` lines 114-122: consume an `ORIG…` instant field. -/
def clean_take_orig (k : Str) (e : Event) : Option (Option (Date × Nat × Nat × Nat) × Event) :=
  match getF e k with
  | some (.s v) => do
      let i ← parseInstant v
      pure (some i, popF e k)
  | some (.l _) => none
  | none => pure (none, e)

/-- `clean_event` lines 124-155, the case with both exact instants: compute
elapsed days/hours, annotate anomalies, and rewrite the duration tags.  The
second component holds the `WARNING:` lines printed to stdout (the model
keeps a fixed marker text per warning site rather than the interpolated
message). -/
def clean_both_instants (ist ien : Date × Nat × Nat × Nat) (e3 : Event) :
    Option (Event × List Str) :=
  let diff : Int := instantSecs ien - instantSecs ist
  let a := adjustWholeDay (elapsedDaysHours diff)
  let log1 : List Str := if a.2.2 then [wMore9] else []
  if 0 < a.1 then do
    let (e4, days2, log2) ←
      if 0 < a.2.1 then do
        let s ← getS e3 kSUMMARY
        let dsc ← getS e3 kDESC
        let e4 := setF (setF e3 kSUMMARY (.s (s ++ "?".data))) kDESC
                    (.s (dsc ++ " hours: ".data ++ intChars a.2.1))
        pure (e4, a.1 + 1, [wHourly])
      else pure (e3, a.1, ([] : List Str))
    let s2 ← getS e4 kSUMMARY
    let e5 := setF e4 kSUMMARY (.s (replaceDayVal s2 days2))
    let d2 ← getS e5 kDESC
    let e6 := setF e5 kDESC (.s (replaceDayVal d2 days2))
    return (e6, log1 ++ log2)
  else do
    let e4 ←
      if a.2.1 ≤ 4 then do
        let s ← getS e3 kSUMMARY
        let half := if brusselsHour ist.1 ist.2.1 < 12 then "AM".data else "PM".data
        pure (setF e3 kSUMMARY (.s (half ++ " ".data ++ s)))
      else pure e3
    let s2 ← getS e4 kSUMMARY
    let e5 := setF e4 kSUMMARY (.s (replacedTimeVal s2 a.2.1))
    let d2 ← getS e5 kDESC
    let e6 := setF e5 kDESC (.s (replacedTimeVal d2 a.2.1))
    return (e6, log1)

/-- `clean_event` lines 124-158, dispatch on which instants are present:
both → `clean_both_instants`; otherwise the `elif get_hours(...) >= 7`
whole-day tag rewrite. -/
def clean_instants (exactStart exactEnd : Option (Date × Nat × Nat × Nat))
    (e3 : Event) : Option (Event × List Str) :=
  match exactStart, exactEnd with
  | some ist, some ien => clean_both_instants ist ien e3
  | _, _ => do
    let s ← getS e3 kSUMMARY
    if 7 ≤ get_hours s then
      return (setF e3 kSUMMARY (.s (replaceDayVal s 1)), [])
    else
      return (e3, [])

/-- `clean_event`: default the end date, consume exact instants, normalise
worked days/hours and rewrite the duration tags.  The second component
collects the warnings printed to stdout. -/
def clean_event (e : Event) : Option (Event × List Str) := do
  let e1 ← clean_default_end e
  let (exactStart, e2) ← clean_take_orig kORIG_DATE_START e1
  let (exactEnd, e3) ← clean_take_orig kORIG_DATE_END e2
  clean_instants exactStart exactEnd e3

/-! ## Merger: emission (`print_dict`) and the consolidation engine -/

/-- A printed event: the `key:value` pairs in emission order, plus whether
the terminator was last (the code prints an error line otherwise). -/
abbrev PrintedEv := List (Str × Str) × Bool

/-- `print_dict`: flatten `__EXTRA__` into the description, beautify the
summary and description, and emit the fields in order.  `none` models the
exceptions on a malformed event (missing description with `__EXTRA__`
present, a residual list-valued field, or an empty event). -/
def print_dict (e : Event) : Option PrintedEv := do
  let e1 ←
    match getF e kEXTRA with
    | some ex => do
        let d ← getS e kDESC
        pure (popF (setF e kDESC (.s (d ++ ": ".data ++ fvalRepr ex))) kEXTRA)
    | none => pure e
  let printed ← e1.mapM fun p =>
    match p.2 with
    | .s v => some (p.1, if p.1 = kDESC ∨ p.1 = kSUMMARY then beautify v else v)
    | .l _ => none
  match e1.reverse with
  | [] => none
  | lastF :: _ => some (printed, lastF.1 == kEND)

/-- One step of the merge pass at an `END:VEVENT` boundary: either start the
accumulator, add-time merge, date-extend merge, or flush and restart.
Returns the new accumulator and the events emitted by the step. -/
def step2 (prev : Option Event) (ne : Event) : Option (Event × List PrintedEv) :=
  match prev with
  | none => some (ne, [])
  | some pe => do
    let sd ← is_same_desc pe ne
    if sd then do
      let sdate ← is_same_date pe ne
      if sdate then do
        let pe1 ← add_time pe ne
        return (pe1, [])
      else do
        let f1 ← is_full_day pe
        if f1 then do
          let nx ← is_next_date pe ne
          if nx then do
            let f2 ← is_full_day ne
            if f2 then do
              let pe1 ← merge_event pe ne
              return (pe1, [])
            else do
              let pr ← print_dict pe
              return (ne, [pr])
          else do
            let pr ← print_dict pe
            return (ne, [pr])
        else do
          let pr ← print_dict pe
          return (ne, [pr])
    else do
      let pr ← print_dict pe
      return (ne, [pr])

/-- Stream the events through the engine, starting from accumulator `prev`. -/
def processEvents (prev : Option Event) : List Event → Option (Option Event × List PrintedEv)
  | [] => some (prev, [])
  | e :: rest => do
    let (acc, out1) ← step2 prev e
    let (fin, out2) ← processEvents (some acc) rest
    return (fin, out1 ++ out2)

/-- The end-of-stream flush: `print_dict(prev_event)`; `none` models the
`TypeError` when the accumulator is `None`. -/
def flushFinal : Option Event → Option PrintedEv
  | none => none
  | some pe => print_dict pe

/-- The whole engine: consolidate the event stream and flush the remainder. -/
def runEngine (events : List Event) : Option (List PrintedEv) := do
  let (fin, out) ← processEvents none events
  let lastP ← flushFinal fin
  return out ++ [lastP]

/-- Field lookup on a printed event. -/
def printedGet (pr : PrintedEv) (k : Str) : Option Str :=
  (pr.1.find? (fun p => p.1 == k)).map (·.2)

/-- An event whose `DTEND` holds a well-formed exclusive end date (as every
event leaving the first pass does). -/
def GoodEnd (e : Event) : Prop :=
  ∃ t : Date, t.Valid ∧ t ≠ minDate ∧ getF e kDATE_END = some (.s (formatDate t))

/-! ## Merger: classifier and report (`get_owner`, `get_category`, `print_all`) -/

/-- Split a string at its last `')'`: (chars before it, chars after it). -/
def splitLastRPar (l : Str) : Option (Str × Str) :=
  let rev := l.reverse
  let p := rev.span (fun c => ¬ c = ')')
  match p.2 with
  | ')' :: beforeRev => some (beforeRev.reverse, p.1.reverse)
  | _ => none

/-- `re.sub(r' \(.+\)\?*', '', value)`: the greedy `.+` extends a match from
the first `' ('` to the last `')'` of the remaining text (needing at least
one character in between), then eats trailing `'?'`s. -/
def subOwnerAux : Nat → Str → Str
  | 0, l => l
  | _ + 1, [] => []
  | fuel + 1, c :: cs =>
    if c = ' ' then
      match cs with
      | '(' :: t =>
        match splitLastRPar t with
        | some (inner, after) =>
          if 1 ≤ inner.length then subOwnerAux fuel (after.dropWhile (fun x => x = '?'))
          else c :: subOwnerAux fuel cs
        | none => c :: subOwnerAux fuel cs
      | _ => c :: subOwnerAux fuel cs
    else c :: subOwnerAux fuel cs

def subOwnerTag (l : Str) : Str := subOwnerAux l.length l

/-- `re.sub(r'^[AP]M ', '', value)`. -/
def dropAMPM (l : Str) : Str :=
  match l with
  | c :: 'M' :: ' ' :: rest => if c = 'A' ∨ c = 'P' then rest else l
  | _ => l

/-- `get_owner`: drop the parenthetical, drop a leading AM/PM, lower-case. -/
def get_owner (value : Str) : Str := lowerStr (dropAMPM (subOwnerTag value))

/-- `\(([a-z][^\)]+)\)` at the head: a lower-case letter then at least one
more non-`')'` character, up to the closing `')'`. -/
def matchCat (l : Str) : Option (Str × Str) :=
  match l with
  | '(' :: c :: t =>
    if isLowerC c then
      let p := t.span (fun x => ¬ x = ')')
      match p.2 with
      | ')' :: r2 => if 1 ≤ p.1.length then some (c :: p.1, r2) else none
      | _ => none
    else none
  | _ => none

def findCat : Str → Option Str
  | [] => none
  | c :: cs =>
    match matchCat (c :: cs) with
    | some (g, _) => some g
    | none => findCat cs

/-- `get_category`: first parenthetical group of the lower-cased summary,
title-cased; `"Off"` when absent. -/
def get_category (value : Str) : Str :=
  match findCat (lowerStr value) with
  | some cat => titleStr cat
  | none => titleStr "off".data

/-- `int(...)` on a field value: the scripts only ever feed it digit strings,
anything else raises `ValueError`. -/
def strToNatOpt (l : Str) : Option Nat :=
  if l ≠ [] ∧ l.all isDigitC then some (charsToNat l) else none

def get_date (e : Event) : Option Nat := do strToNatOpt (← get_date_str e)

/-- The module-level `owners` index: owner → category → date → events,
in dict insertion order. -/
abbrev Owners := List (Str × List (Str × List (Nat × List Event)))

def upsert {κ β : Type} [DecidableEq κ] (k : κ) (f : β → β) (dflt : β) :
    List (κ × β) → List (κ × β)
  | [] => [(k, f dflt)]
  | (k', v) :: rest => if k' = k then (k, f v) :: rest else (k', v) :: upsert k f dflt rest

def ownersInsert (os : Owners) (owner cat : Str) (date : Nat) (e : Event) : Owners :=
  upsert owner
    (fun cats => upsert cat
      (fun dates => upsert date (fun evs => evs ++ [e]) [] dates) [] cats) [] os

def concatMap {α β : Type} (f : α → List β) : List α → List β
  | [] => []
  | x :: xs => f x ++ concatMap f xs

/-- Lexicographic order on strings by code point (Python `<` on `str`). -/
def strLtB : Str → Str → Bool
  | [], [] => false
  | [], _ :: _ => true
  | _ :: _, [] => false
  | c :: cs, d :: ds =>
    if c.toNat < d.toNat then true
    else if d.toNat < c.toNat then false
    else strLtB cs ds

def insertBy {α : Type} (lt : α → α → Bool) (x : α) : List α → List α
  | [] => [x]
  | y :: ys => if lt x y then x :: y :: ys else y :: insertBy lt x ys

/-- `sorted(...)` (keys are distinct, so stability is moot). -/
def sortBy {α : Type} (lt : α → α → Bool) : List α → List α
  | [] => []
  | x :: xs => insertBy lt x (sortBy lt xs)

/-- `print_all`: dump every indexed event, sorted by owner, category and
date; values are plain strings here (`__EXTRA__` never exists in pass 1).
The per-owner totals go to stdout, not to the output file. -/
def printAll (os : Owners) : List Str :=
  concatMap (fun ow =>
    concatMap (fun ct =>
      concatMap (fun dt =>
        concatMap (fun e => e.map fun p => p.1 ++ ':' :: fvalRepr p.2) dt.2)
        (sortBy (fun a b => decide (a.1 < b.1)) ct.2))
      (sortBy (fun a b => strLtB a.1 b.1) ow.2))
    (sortBy (fun a b => strLtB a.1 b.1) os)

/-! ## Merger: the two line-level passes -/

structure P1State where
  event : Option Event
  owners : Owners
  out : List Str

/-- One input line of the merger's first pass: split on the first colon, skip
empty values, echo non-event lines (emitting the report before the final
`END:VCALENDAR`), restrict timed `DTSTART`/`DTEND` values to whole days
(keeping the originals in `ORIG…` fields), and on `END:VEVENT` clean the
event and file it in the owner index. -/
def p1Line (st : P1State) (line : Str) : Option P1State := do
  let l := rstrip line
  let (k, v) ← splitColon l
  if v = [] then pure st
  else if st.event.isNone ∧ l ≠ "BEGIN:VEVENT".data then
    pure { st with
      out := st.out ++ (if l = "END:VCALENDAR".data then printAll st.owners else []) ++ [l] }
  else do
    let ev0 := match st.event with
               | some e => e
               | none => []
    let (ev1, v1) ←
      if (k = kDATE_START ∨ k = kDATE_END) ∧ v.contains 'T' then do
        let ev' := setF ev0 ("ORIG".data ++ k) (.s v)
        let v8 := v.take 8
        if k = kDATE_END then do
          let nd ← date_next_day_str v8
          pure (ev', nd)
        else pure (ev', v8)
      else pure (ev0, v)
    let ev2 := setF ev1 k (.s v1)
    if k = kEND then
      if v = "VEVENT".data then do
        let (ec, _) ← clean_event ev2
        let sm ← getS ec kSUMMARY
        let date ← get_date ec
        let os := ownersInsert st.owners (get_owner sm) (get_category sm) date ec
        pure { st with event := none, owners := os }
      else pure { st with event := some ev2 }
    else pure { st with event := some ev2 }

def runPass1 (lines : List Str) : Option (List Str) := do
  let fin ← lines.foldlM p1Line ⟨none, [], []⟩
  return fin.out

structure P2State where
  inEvent : Bool
  newEvent : Event
  prevEvent : Option Event
  out : List Str
  halted : Bool

def printedLines (pr : PrintedEv) : List Str := pr.1.map fun p => p.1 ++ ':' :: p.2

/-- One input line of the merger's merge pass: echo non-event lines (flushing
the accumulator via `print_dict(prev_event)` before the final
`END:VCALENDAR`), collect event fields, and on `END:VEVENT` run the
consolidation step; `END:` with another value prints an error and breaks. -/
def p2Line (st : P2State) (line : Str) : Option P2State :=
  if st.halted then some st else do
  let l := rstrip line
  let (k, v) ← splitColon l
  if st.inEvent = false ∧ l ≠ "BEGIN:VEVENT".data then do
    let fl ←
      if l = "END:VCALENDAR".data then do
        let pr ← flushFinal st.prevEvent
        pure (printedLines pr)
      else pure []
    pure { st with out := st.out ++ fl ++ [l] }
  else do
    let ev0 := if st.inEvent then st.newEvent else []
    let ev1 := setF ev0 k (.s v)
    if k = kEND then
      if v = "VEVENT".data then do
        let (acc, outs) ← step2 st.prevEvent ev1
        let o2 := st.out ++ concatMap printedLines outs
        pure { st with inEvent := false, newEvent := [], prevEvent := some acc, out := o2 }
      else
        pure { st with inEvent := true, newEvent := ev1, halted := true }
    else
      pure { st with inEvent := true, newEvent := ev1 }

def runPass2 (lines : List Str) : Option (List Str) := do
  let fin ← lines.foldlM p2Line ⟨false, [], none, [], false⟩
  return fin.out

end SDWC

namespace SDWC.Exp

/-! ## Expender variant (`sdworx_calendar_expender.py`): description
comparison, which strips only hour tags and does not lower-case. -/

def get_desc (e : Event) : Option Str :=
  (getS e kDESC).map fun s => subSpaced ['h'] [] s

def is_same_desc (pe ne : Event) : Option Bool := do
  let a ← get_desc pe
  let b ← get_desc ne
  return a == b

end SDWC.Exp

namespace SDWC

/-! # Theorems -/

/-! ## C10: the final flush assumes at least one event block -/

theorem p2_no_events_crash : ∀ (lines : List Str) (st : P2State),
    st.inEvent = false → st.prevEvent = none → st.halted = false →
    (∀ l ∈ lines, rstrip l ≠ "BEGIN:VEVENT".data) →
    (∃ l ∈ lines, rstrip l = "END:VCALENDAR".data) →
    List.foldlM p2Line st lines = none := by
  intro lines
  induction lines with
  | nil =>
    intro st _ _ _ _ hex
    simp at hex
  | cons l rest ih =>
    intro st hin hprev hhalt hnb hex
    rw [List.foldlM_cons]
    rcases hsp : splitColon (rstrip l) with _ | ⟨k, v⟩
    · have hnone : p2Line st l = none := by
        simp [p2Line, hhalt, hsp]
      rw [hnone]
      rfl
    · have hnbl : rstrip l ≠ "BEGIN:VEVENT".data := hnb l (by simp)
      by_cases hendl : rstrip l = "END:VCALENDAR".data
      · have hnone : p2Line st l = none := by
          simp [p2Line, hhalt, hsp, hin, hnbl, hendl, flushFinal, hprev]
        rw [hnone]
        rfl
      · have hstep : p2Line st l =
            some { st with out := st.out ++ [] ++ [rstrip l] } := by
          simp [p2Line, hhalt, hsp, hin, hnbl, hendl]
        rw [hstep]
        have hex' : ∃ l2 ∈ rest, rstrip l2 = "END:VCALENDAR".data := by
          rcases hex with ⟨l2, hmem, hl2⟩
          rcases List.mem_cons.mp hmem with heq | hmem'
          · exact absurd (heq ▸ hl2) hendl
          · exact ⟨l2, hmem', hl2⟩
        exact ih _ hin hprev hhalt (fun x hx => hnb x (List.mem_cons_of_mem _ hx)) hex'

/-- C10: when the merge pass reaches the `END:VCALENDAR` line it calls the
emission routine on the accumulator unconditionally; with no event block in
the input the accumulator is still `None`, so `print_dict(None)` raises (the
run is modelled as `none`).  The flush is therefore only well-defined for
inputs with at least one event block. -/
theorem C10_final_flush_requires_event (lines : List Str)
    (hNoBegin : ∀ l ∈ lines, rstrip l ≠ "BEGIN:VEVENT".data)
    (hEnd : ∃ l ∈ lines, rstrip l = "END:VCALENDAR".data) :
    runPass2 lines = none := by
  unfold runPass2
  rw [p2_no_events_crash lines ⟨false, [], none, [], false⟩ rfl rfl rfl hNoBegin hEnd]
  rfl

theorem C10_witness :
    (∀ l ∈ ["BEGIN:VCALENDAR".data, "END:VCALENDAR".data],
      rstrip l ≠ "BEGIN:VEVENT".data) ∧
    (∃ l ∈ ["BEGIN:VCALENDAR".data, "END:VCALENDAR".data],
      rstrip l = "END:VCALENDAR".data) ∧
    runPass2 ["BEGIN:VCALENDAR".data, "END:VCALENDAR".data] = none :=
  ⟨by decide, by decide,
    C10_final_flush_requires_event _ (by decide) (by decide)⟩

/-! ## C9: pass-through of non-event lines (corrected) -/

/-- C9 counterexample: the merger's first pass drops an outside-block line
whose value part after the colon is empty (`if not value: continue`), so such
a line is not written to the output unchanged. -/
theorem C9_counterexample :
    runPass1 ["BEGIN:VCALENDAR".data, "X-PROP:".data, "END:VCALENDAR".data] =
      some ["BEGIN:VCALENDAR".data, "END:VCALENDAR".data] ∧
    "X-PROP:".data ∉ ["BEGIN:VCALENDAR".data, "END:VCALENDAR".data] :=
  ⟨by decide, by decide⟩

/-- C9 (amended): outside any event block, a line carrying a colon and a
nonempty value — other than `BEGIN:VEVENT` — is echoed to the output in
right-stripped form, with the report emitted just before the fixed final
`END:VCALENDAR` line; a line with an empty value is skipped instead of
echoed. -/
theorem C9_outside_lines (st : P1State) (line : Str) (k v : Str)
    (hev : st.event = none)
    (hsplit : splitColon (rstrip line) = some (k, v)) :
    (v = [] → p1Line st line = some st) ∧
    (v ≠ [] → rstrip line ≠ "BEGIN:VEVENT".data →
      p1Line st line = some { st with out := st.out ++
        (if rstrip line = "END:VCALENDAR".data then printAll st.owners else []) ++
        [rstrip line] }) := by
  constructor
  · intro hv
    simp [p1Line, hsplit, hv]
  · intro hv hnb
    simp [p1Line, hsplit, hv, hev, hnb]

theorem C9_witness :
    splitColon (rstrip "VERSION:2.0".data) = some ("VERSION".data, "2.0".data) ∧
    ("2.0".data ≠ ([] : Str) → rstrip "VERSION:2.0".data ≠ "BEGIN:VEVENT".data →
      p1Line ⟨none, [], []⟩ "VERSION:2.0".data = some ⟨none, [],
        [] ++ (if rstrip "VERSION:2.0".data = "END:VCALENDAR".data
               then printAll [] else []) ++ [rstrip "VERSION:2.0".data]⟩) :=
  ⟨by decide, (C9_outside_lines ⟨none, [], []⟩ "VERSION:2.0".data
    "VERSION".data "2.0".data rfl (by decide)).2⟩

/-! ## C8: normalizer whole-day rounding -/

/-- C8: the normalizer's elapsed computation — `elapsedDaysHours` is exactly
the floor-division day count and the hour remainder of the interval between
the two instants, and `adjustWholeDay` counts one extra day whenever the
remainder is at least 7, zeroes the remainder in the 7–9 band, and flags a
remainder above 9 without correcting it. -/
theorem C8_whole_day_rounding (diff : Int) :
    (diff = 86400 * (elapsedDaysHours diff).1 + Int.fmod diff 86400 ∧
      0 ≤ Int.fmod diff 86400 ∧ Int.fmod diff 86400 < 86400 ∧
      (elapsedDaysHours diff).2 = Int.fmod diff 86400 / 3600) ∧
    (7 ≤ (elapsedDaysHours diff).2 →
      (adjustWholeDay (elapsedDaysHours diff)).1 = (elapsedDaysHours diff).1 + 1) ∧
    (7 ≤ (elapsedDaysHours diff).2 ∧ (elapsedDaysHours diff).2 ≤ 9 →
      (adjustWholeDay (elapsedDaysHours diff)).2.1 = 0 ∧
      (adjustWholeDay (elapsedDaysHours diff)).2.2 = false) ∧
    (9 < (elapsedDaysHours diff).2 →
      (adjustWholeDay (elapsedDaysHours diff)).2.1 = (elapsedDaysHours diff).2 ∧
      (adjustWholeDay (elapsedDaysHours diff)).2.2 = true) ∧
    ((elapsedDaysHours diff).2 < 7 →
      adjustWholeDay (elapsedDaysHours diff) =
        ((elapsedDaysHours diff).1, (elapsedDaysHours diff).2, false)) := by
  have hmod : Int.fmod diff 86400 + 86400 * Int.fdiv diff 86400 = diff :=
    Int.fmod_add_fdiv diff 86400
  have hnn : 0 ≤ Int.fmod diff 86400 :=
    Int.fmod_nonneg' diff (by norm_num)
  have hlt : Int.fmod diff 86400 < 86400 :=
    Int.fmod_lt_of_pos diff (by norm_num)
  refine ⟨⟨by simp [elapsedDaysHours]; omega, hnn, hlt, rfl⟩, ?_, ?_, ?_, ?_⟩
  · intro h7
    simp only [adjustWholeDay, if_pos h7]
    split <;> rfl
  · rintro ⟨h7, h9⟩
    have h9' : ¬ 9 < (elapsedDaysHours diff).2 := by omega
    simp [adjustWholeDay, if_pos h7, if_neg h9']
  · intro h9
    have h7 : 7 ≤ (elapsedDaysHours diff).2 := by omega
    simp [adjustWholeDay, if_pos h7, if_pos h9]
  · intro h7
    have h7' : ¬ 7 ≤ (elapsedDaysHours diff).2 := by omega
    simp only [adjustWholeDay, if_neg h7']

/-! ## C1: next-eligible-date rule (corrected) -/

/-- C1 counterexample: for an accumulator whose last covered date is
9999-12-31 (a Friday) and an incoming start date 9999-12-27 (a Monday), the
claimed right-hand side holds — the gap is below 7 and the weekday classes
match — yet the eligibility test does not succeed: `date_next_day_str`
overflows past the maximum representable date, so `is_next_date` raises
instead of returning `True`. -/
theorem C1_counterexample :
    is_next_date [(kDATE_START, FVal.s "99991231".data)]
        [(kDATE_START, FVal.s "99991227".data)] ≠ some true ∧
    is_next_date [(kDATE_START, FVal.s "99991231".data)]
        [(kDATE_START, FVal.s "99991227".data)] = none ∧
    get_last_date_str [(kDATE_START, FVal.s "99991231".data)] =
      some (formatDate ⟨9999, 12, 31⟩) ∧
    get_date_str [(kDATE_START, FVal.s "99991227".data)] =
      some (formatDate ⟨9999, 12, 27⟩) ∧
    Date.Valid ⟨9999, 12, 31⟩ ∧ Date.Valid ⟨9999, 12, 27⟩ ∧
    (toOrdinal ⟨9999, 12, 27⟩ : Int) - (toOrdinal ⟨9999, 12, 31⟩ : Int) < 7 ∧
    weekdayOf ⟨9999, 12, 31⟩ = 4 ∧ weekdayOf ⟨9999, 12, 27⟩ = 0 := by
  refine ⟨by decide, by decide, by decide, by decide, by decide, by decide, ?_, by decide, by decide⟩
  decide

theorem opt_if_chain (a b c : Bool) :
    (if a = true then (if b = true then some c else some false) else some false) =
      some (a && (b && c)) := by
  cases a <;> cases b <;> simp

/-- C1 (amended): whenever the accumulator carries an explicit end date — so
that its last covered date `P` is strictly below the maximum representable
date — the eligibility test returns `True` exactly when the incoming start
date `N` is the next calendar day after `P`, or the calendar gap from `P` to
`N` is below 7 with `P`'s weekday in {Friday, Saturday, Sunday} and `N`'s
weekday in {Monday, Saturday, Sunday}.  (At `P = 9999-12-31`, reachable only
through the no-end-date fallback, the test overflows instead: see the
counterexample.) -/
theorem C1_next_eligible (A E : Event) (Q N : Date)
    (hA : getF A kDATE_END = some (.s (formatDate Q)))
    (hQ : Q.Valid) (hQmin : Q ≠ minDate)
    (hE : getS E kDATE_START = some (formatDate N)) (hN : N.Valid) :
    is_next_date A E = some true ↔
      (N = nextDay (prevDay Q) ∨
       ((toOrdinal N : Int) - (toOrdinal (prevDay Q) : Int) < 7 ∧
        (weekdayOf (prevDay Q) = 4 ∨ weekdayOf (prevDay Q) = 5 ∨ weekdayOf (prevDay Q) = 6) ∧
        (weekdayOf N = 0 ∨ weekdayOf N = 5 ∨ weekdayOf N = 6))) := by
  have hP : (prevDay Q).Valid := prevDay_valid hQ hQmin
  have hPmax : prevDay Q ≠ maxDate := prevDay_ne_maxDate hQ
  have hnextP : (nextDay (prevDay Q)).Valid := nextDay_valid hP hPmax
  have hlast : get_last_date_str A = some (formatDate (prevDay Q)) := by
    simp [get_last_date_str, hA, date_prev_day_str, parseDate_formatDate Q hQ, hQmin]
  have hgd : get_date_str E = some (formatDate N) := hE
  have hnd : date_next_day_str (formatDate (prevDay Q)) =
      some (formatDate (nextDay (prevDay Q))) := by
    simp [date_next_day_str, parseDate_formatDate _ hP, hPmax]
  have hwP : weekdayOf (prevDay Q) < 7 := Nat.mod_lt _ (by omega)
  have hwN : weekdayOf N < 7 := Nat.mod_lt _ (by omega)
  by_cases heq : formatDate (nextDay (prevDay Q)) = formatDate N
  · have heq' : N = nextDay (prevDay Q) := (formatDate_inj hnextP hN heq).symm
    have hval : is_next_date A E = some true := by
      simp [is_next_date, hlast, hgd, hnd, heq]
    rw [hval]
    simp [heq']
  · have hlw : is_less_a_week (formatDate (prevDay Q)) (formatDate N) =
        some (decide ((toOrdinal N : Int) - (toOrdinal (prevDay Q) : Int) < 7)) := by
      simp [is_less_a_week, get_diff_date, parseDate_formatDate _ hP, parseDate_formatDate _ hN]
    have hew : is_end_week (formatDate (prevDay Q)) =
        some (decide (4 ≤ weekdayOf (prevDay Q))) := by
      simp [is_end_week, get_weekday, parseDate_formatDate _ hP]
    have hsw : is_start_week (formatDate N) =
        some (weekdayOf N == 0 || decide (4 < weekdayOf N)) := by
      simp [is_start_week, get_weekday, parseDate_formatDate _ hN]
    have hval : is_next_date A E =
        some (decide ((toOrdinal N : Int) - (toOrdinal (prevDay Q) : Int) < 7) &&
          (decide (4 ≤ weekdayOf (prevDay Q)) &&
           (weekdayOf N == 0 || decide (4 < weekdayOf N)))) := by
      simp only [is_next_date, hlast, hgd, hnd, hlw, hew, hsw, Option.bind_eq_bind,
        Option.some_bind, heq, if_false]
      exact opt_if_chain _ _ _
    rw [hval]
    have hne' : ¬ (N = nextDay (prevDay Q)) := fun hcc => heq (by rw [hcc])
    simp only [Option.some_inj, Bool.and_eq_true, Bool.or_eq_true, decide_eq_true_eq,
      beq_iff_eq]
    constructor
    · rintro ⟨h1, h2, h3⟩
      exact Or.inr ⟨h1, by omega, by omega⟩
    · rintro (hcc | ⟨h1, h2, h3⟩)
      · exact absurd hcc hne'
      · exact ⟨h1, by omega, by omega⟩

theorem C1_witness :
    getF [(kDATE_END, FVal.s (formatDate ⟨2023, 1, 4⟩)),
          (kDATE_START, FVal.s "20230103".data)] kDATE_END =
      some (.s (formatDate ⟨2023, 1, 4⟩)) ∧
    Date.Valid ⟨2023, 1, 4⟩ ∧ (⟨2023, 1, 4⟩ : Date) ≠ minDate ∧
    getS [(kDATE_START, FVal.s (formatDate ⟨2023, 1, 4⟩))] kDATE_START =
      some (formatDate ⟨2023, 1, 4⟩) ∧ Date.Valid ⟨2023, 1, 4⟩ ∧
    (is_next_date [(kDATE_END, FVal.s (formatDate ⟨2023, 1, 4⟩)),
          (kDATE_START, FVal.s "20230103".data)]
        [(kDATE_START, FVal.s (formatDate ⟨2023, 1, 4⟩))] = some true ↔
      ((⟨2023, 1, 4⟩ : Date) = nextDay (prevDay ⟨2023, 1, 4⟩) ∨
       ((toOrdinal (⟨2023, 1, 4⟩ : Date) : Int) -
          (toOrdinal (prevDay ⟨2023, 1, 4⟩) : Int) < 7 ∧
        (weekdayOf (prevDay ⟨2023, 1, 4⟩) = 4 ∨ weekdayOf (prevDay ⟨2023, 1, 4⟩) = 5 ∨
          weekdayOf (prevDay ⟨2023, 1, 4⟩) = 6) ∧
        (weekdayOf (⟨2023, 1, 4⟩ : Date) = 0 ∨ weekdayOf (⟨2023, 1, 4⟩ : Date) = 5 ∨
          weekdayOf (⟨2023, 1, 4⟩ : Date) = 6)))) :=
  ⟨by decide, by decide, by decide, by decide, by decide,
    C1_next_eligible _ _ _ _ (by decide) (by decide) (by decide) (by decide) (by decide)⟩

/-! ## Ordered-dictionary lemmas -/

theorem getF_cons (k' : Str) (v' : FVal) (rest : Event) (k : Str) :
    getF ((k', v') :: rest) k = if k' = k then some v' else getF rest k := rfl

theorem getF_mem_keys : ∀ {e : Event} {k : Str} {v : FVal},
    getF e k = some v → k ∈ keysOf e := by
  intro e
  induction e with
  | nil => intro k v h; exact Option.noConfusion h
  | cons p rest ih =>
    intro k v h
    obtain ⟨k', v'⟩ := p
    rw [getF_cons] at h
    by_cases hk : k' = k
    · subst hk
      exact List.mem_cons_self _ _
    · rw [if_neg hk] at h
      simp only [keysOf, List.map_cons, List.mem_cons]
      exact Or.inr (ih h)

theorem getS_mem_keys {e : Event} {k : Str} {s : Str}
    (h : getS e k = some s) : k ∈ keysOf e := by
  unfold getS at h
  rcases hf : getF e k with _ | v
  · rw [hf] at h; simp at h
  · exact getF_mem_keys hf

theorem setF_cons (k' : Str) (v' : FVal) (rest : Event) (k : Str) (v : FVal) :
    setF ((k', v') :: rest) k v =
      if k' = k then (k, v) :: rest else (k', v') :: setF rest k v := rfl

theorem keysOf_setF_of_mem : ∀ {e : Event} (k : Str) (v : FVal),
    k ∈ keysOf e → keysOf (setF e k v) = keysOf e := by
  intro e
  induction e with
  | nil => intro k v h; simp [keysOf] at h
  | cons p rest ih =>
    intro k v h
    obtain ⟨k', v'⟩ := p
    rw [setF_cons]
    by_cases hk : k' = k
    · rw [if_pos hk]; simp [keysOf, hk]
    · rw [if_neg hk]
      simp only [keysOf, List.map_cons] at h ⊢
      rcases List.mem_cons.mp h with heq | hmem
      · exact absurd heq.symm hk
      · show k' :: keysOf (setF rest k v) = k' :: keysOf rest
        rw [ih k v hmem]

theorem getF_setF_ne : ∀ (e : Event) (k k' : Str) (v : FVal), k ≠ k' →
    getF (setF e k v) k' = getF e k' := by
  intro e
  induction e with
  | nil => intro k k' v hne; simp [setF, getF, hne]
  | cons p rest ih =>
    intro k k' v hne
    obtain ⟨k0, v0⟩ := p
    rw [setF_cons]
    by_cases hk : k0 = k
    · rw [if_pos hk, getF_cons, getF_cons, if_neg hne, if_neg (hk ▸ (hk ▸ hne : k0 ≠ k'))]
    · rw [if_neg hk, getF_cons, getF_cons]
      by_cases hk' : k0 = k'
      · rw [if_pos hk', if_pos hk']
      · rw [if_neg hk', if_neg hk', ih k k' v hne]

theorem getF_setF_self : ∀ (e : Event) (k : Str) (v : FVal),
    getF (setF e k v) k = some v := by
  intro e
  induction e with
  | nil => intro k v; simp [setF, getF]
  | cons p rest ih =>
    intro k v
    obtain ⟨k0, v0⟩ := p
    rw [setF_cons]
    by_cases hk : k0 = k
    · rw [if_pos hk, getF_cons, if_pos rfl]
    · rw [if_neg hk, getF_cons, if_neg hk, ih]

theorem popF_cons (k' : Str) (v' : FVal) (rest : Event) (k : Str) :
    popF ((k', v') :: rest) k =
      if k' = k then popF rest k else (k', v') :: popF rest k := by
  unfold popF
  by_cases hk : k' = k <;> simp [List.filter, hk]

theorem getF_popF_ne : ∀ (e : Event) (k k' : Str), k ≠ k' →
    getF (popF e k) k' = getF e k' := by
  intro e
  induction e with
  | nil => intro k k' hne; rfl
  | cons p rest ih =>
    intro k k' hne
    obtain ⟨k0, v0⟩ := p
    rw [popF_cons]
    by_cases hk : k0 = k
    · rw [if_pos hk, getF_cons, if_neg (by rw [hk]; exact hne), ih _ _ hne]
    · rw [if_neg hk, getF_cons, getF_cons]
      by_cases hk' : k0 = k'
      · rw [if_pos hk', if_pos hk']
      · rw [if_neg hk', if_neg hk', ih _ _ hne]

theorem lastKey_moveToEnd {e : Event} {k : Str} {e' : Event}
    (h : moveToEnd e k = some e') : lastKey e' = some k := by
  unfold moveToEnd at h
  rcases hf : getF e k with _ | v
  · rw [hf] at h; simp at h
  · rw [hf] at h
    injection h with h
    subst h
    unfold lastKey
    rw [List.map_append]
    simp

theorem getLast?_filter_ne {l : List Str} {kk k : Str}
    (h : l.getLast? = some kk) (hne : kk ≠ k) :
    (l.filter (fun x => ¬ x = k)).getLast? = some kk := by
  induction l with
  | nil => simp at h
  | cons c rest ih =>
    rcases hrest : rest with _ | ⟨c2, rest2⟩
    · subst hrest
      simp only [List.getLast?_singleton, Option.some_inj] at h
      subst h
      simp [List.filter, hne]
    · rw [hrest] at h ih
      have hlast : (c2 :: rest2).getLast? = some kk := by
        rw [← h]; symm
        exact List.getLast?_cons_cons ..
      have ihres := ih hlast
      show ((c :: c2 :: rest2).filter (fun x => ¬ x = k)).getLast? = some kk
      rw [List.filter_cons]
      split
      · rcases hx : (c2 :: rest2).filter (fun x => ¬ x = k) with _ | ⟨a, b⟩
        · rw [hx] at ihres; simp at ihres
        · rw [List.getLast?_cons_cons]
          rw [hx] at ihres
          exact ihres
      · exact ihres

theorem keysOf_popF (e : Event) (k : Str) :
    keysOf (popF e k) = (keysOf e).filter (fun x => ¬ x = k) := by
  induction e with
  | nil => rfl
  | cons p rest ih =>
    obtain ⟨k0, v0⟩ := p
    rw [popF_cons]
    by_cases hk : k0 = k
    · rw [if_pos hk]
      simp only [keysOf, List.map_cons, List.filter_cons] at ih ⊢
      rw [ih]
      have : ¬ (¬ k0 = k) := by simp [hk]
      simp [hk]
    · rw [if_neg hk]
      simp only [keysOf, List.map_cons, List.filter_cons] at ih ⊢
      rw [ih]
      simp [hk]

theorem lastKey_popF {e : Event} {k kk : Str}
    (h : lastKey e = some kk) (hne : kk ≠ k) :
    lastKey (popF e k) = some kk := by
  unfold lastKey at h ⊢
  rw [show (popF e k).map (·.1) = keysOf (popF e k) from rfl, keysOf_popF]
  exact getLast?_filter_ne h hne

theorem lastKey_setF_of_mem {e : Event} (k : Str) (v : FVal)
    (h : k ∈ keysOf e) : lastKey (setF e k v) = lastKey e := by
  unfold lastKey
  rw [show (setF e k v).map (·.1) = keysOf (setF e k v) from rfl,
    keysOf_setF_of_mem k v h]
  rfl

/-- The printing transform keeps the field keys: if `mapM` succeeds, the
printed keys are the event's keys. -/
theorem mapM_keys : ∀ (e1 : Event) (printed : List (Str × Str)),
    e1.mapM (fun p =>
      match p.2 with
      | FVal.s v => some (p.1, if p.1 = kDESC ∨ p.1 = kSUMMARY then beautify v else v)
      | FVal.l _ => none) = some printed →
    printed.map (·.1) = keysOf e1 := by
  intro e1
  induction e1 with
  | nil =>
    intro printed h
    simp only [List.mapM_nil, pure, Option.some_inj] at h
    subst h
    rfl
  | cons p rest ih =>
    intro printed h
    rw [List.mapM_cons] at h
    rcases hp : (match p.2 with
      | FVal.s v => some (p.1, if p.1 = kDESC ∨ p.1 = kSUMMARY then beautify v else v)
      | FVal.l _ => none) with _ | q
    · rw [hp] at h; simp at h
    · rw [hp] at h
      rcases hrest : rest.mapM (fun p =>
        match p.2 with
        | FVal.s v => some (p.1, if p.1 = kDESC ∨ p.1 = kSUMMARY then beautify v else v)
        | FVal.l _ => none) with _ | printed'
      · rw [hrest] at h; simp at h
      · rw [hrest] at h
        simp only [Option.bind_eq_bind, Option.some_bind, pure, Option.some_inj] at h
        subst h
        have hq1 : q.1 = p.1 := by
          rcases p with ⟨pk, pv⟩
          rcases pv with v | items
          · simp only [Option.some_inj] at hp; rw [← hp]
          · simp at hp
        show q.1 :: printed'.map (·.1) = keysOf (p :: rest)
        rw [hq1, ih printed' hrest]
        rfl

/-! ## C5: the terminator field stays last -/

/-- C5: the terminator invariant.  `add_extra` ends by moving `END:VEVENT`
back to the last position; the implicit end-date default does the same after
inserting `DTEND`; an in-place field update never changes the key order; and
when an event whose last field is the terminator is serialized, the emitted
field sequence ends with the terminator and the defensive check passes. -/
theorem C5_terminator_last :
    (∀ (e : Event) (desc extra nb : Str) (e' : Event),
      add_extra e desc extra nb = some e' → lastKey e' = some kEND) ∧
    (∀ (e : Event) (v : FVal) (e' : Event),
      moveToEnd (setF e kDATE_END v) kEND = some e' → lastKey e' = some kEND) ∧
    (∀ (e : Event) (k : Str) (v : FVal), k ∈ keysOf e →
      lastKey (setF e k v) = lastKey e) ∧
    (∀ (e : Event) (pr : PrintedEv), print_dict e = some pr →
      lastKey e = some kEND → (pr.1.map (·.1)).getLast? = some kEND ∧ pr.2 = true) := by
  refine ⟨?_, ?_, ?_, ?_⟩
  · intro e desc extra nb e' h
    unfold add_extra at h
    rcases hx : getF e kEXTRA with _ | v
    · rw [hx] at h
      exact lastKey_moveToEnd h
    · rw [hx] at h
      rcases v with v | items
      · simp at h
      · exact lastKey_moveToEnd h
  · intro e v e' h
    exact lastKey_moveToEnd h
  · intro e k v h
    exact lastKey_setF_of_mem k v h
  · intro e pr h hlast
    unfold print_dict at h
    have hEkeys : kEND ∈ keysOf e :=
      List.mem_of_mem_getLast? (Option.mem_def.mpr hlast)
    rcases hx : getF e kEXTRA with _ | ex
    · rw [hx] at h
      simp only [Option.bind_eq_bind, Option.some_bind, pure] at h
      rcases hm : e.mapM (fun p =>
        match p.2 with
        | FVal.s v => some (p.1, if p.1 = kDESC ∨ p.1 = kSUMMARY then beautify v else v)
        | FVal.l _ => none) with _ | printed
      · rw [hm] at h; simp at h
      · rw [hm] at h
        simp only [Option.some_bind] at h
        rcases hrev : e.reverse with _ | ⟨lastF, revRest⟩
        · rw [hrev] at h; simp at h
        · rw [hrev] at h
          simp only [Option.some_inj] at h
          subst h
          have hkeys := mapM_keys e printed hm
          have hl : lastF.1 = kEND := by
            have h1 : e.getLast? = some lastF := by
              rw [List.getLast?_eq_head?_reverse, hrev]; rfl
            unfold lastKey at hlast
            have h2 : (e.map (·.1)).getLast? = (e.getLast?).map (·.1) := by
              rw [List.getLast?_eq_head?_reverse, List.getLast?_eq_head?_reverse,
                ← List.map_reverse]
              rcases e.reverse with _ | ⟨a, b⟩ <;> rfl
            rw [h2, h1] at hlast
            simp only [Option.map_some', Option.some_inj] at hlast
            exact hlast
          constructor
          · rw [hkeys]
            exact hlast
          · simp [hl]
    · rw [hx] at h
      rcases hd : getS e kDESC with _ | d
      · rw [hd] at h; simp at h
      · rw [hd] at h
        simp only [Option.bind_eq_bind, Option.some_bind, pure] at h
        have hdmem : kDESC ∈ keysOf e := getS_mem_keys hd
        have hlast1 : lastKey (setF e kDESC (.s (d ++ ": ".data ++ fvalRepr ex))) =
            some kEND := by rw [lastKey_setF_of_mem _ _ hdmem]; exact hlast
        have hlast2 : lastKey (popF (setF e kDESC (.s (d ++ ": ".data ++ fvalRepr ex)))
            kEXTRA) = some kEND := lastKey_popF hlast1 (by decide)
        set e1 := popF (setF e kDESC (.s (d ++ ": ".data ++ fvalRepr ex))) kEXTRA with he1
        rcases hm : e1.mapM (fun p =>
          match p.2 with
          | FVal.s v => some (p.1, if p.1 = kDESC ∨ p.1 = kSUMMARY then beautify v else v)
          | FVal.l _ => none) with _ | printed
        · rw [hm] at h; simp at h
        · rw [hm] at h
          simp only [Option.some_bind] at h
          rcases hrev : e1.reverse with _ | ⟨lastF, revRest⟩
          · rw [hrev] at h; simp at h
          · rw [hrev] at h
            simp only [Option.some_inj] at h
            subst h
            have hkeys := mapM_keys e1 printed hm
            have hl : lastF.1 = kEND := by
              have h1 : e1.getLast? = some lastF := by
                rw [List.getLast?_eq_head?_reverse, hrev]; rfl
              unfold lastKey at hlast2
              have h2 : (e1.map (·.1)).getLast? = (e1.getLast?).map (·.1) := by
                rw [List.getLast?_eq_head?_reverse, List.getLast?_eq_head?_reverse,
                  ← List.map_reverse]
                rcases e1.reverse with _ | ⟨a, b⟩ <;> rfl
              rw [h2, h1] at hlast2
              simp only [Option.map_some', Option.some_inj] at hlast2
              exact hlast2
            constructor
            · rw [hkeys]
              exact hlast2
            · simp [hl]

theorem C5_witness :
    (add_extra [(kSUMMARY, FVal.s "w".data), (kEND, FVal.s "VEVENT".data)]
      "add time".data "task".data "2h".data =
        some [(kSUMMARY, FVal.s "w".data),
              (kEXTRA, FVal.l ["add time: task [2h]".data]),
              (kEND, FVal.s "VEVENT".data)]) ∧
    lastKey [(kSUMMARY, FVal.s "w".data),
             (kEXTRA, FVal.l ["add time: task [2h]".data]),
             (kEND, FVal.s "VEVENT".data)] = some kEND ∧
    (([(kSUMMARY, "W".data), (kEND, "VEVENT".data)].map
        (fun p : Str × Str => p.1)).getLast? = some kEND ∧ True) := by
  refine ⟨by decide, ?_, ?_, trivial⟩
  · exact C5_terminator_last.1
      [(kSUMMARY, FVal.s "w".data), (kEND, FVal.s "VEVENT".data)]
      "add time".data "task".data "2h".data
      [(kSUMMARY, FVal.s "w".data), (kEXTRA, FVal.l ["add time: task [2h]".data]),
       (kEND, FVal.s "VEVENT".data)] (by decide)
  · exact (C5_terminator_last.2.2.2 [(kSUMMARY, FVal.s "w".data), (kEND, FVal.s "VEVENT".data)]
      ([(kSUMMARY, "W".data), (kEND, "VEVENT".data)], true) (by decide) (by decide)).1

/-! ## C4: exclusive-end-date contract -/

theorem getF_append (xs ys : Event) (k : Str) :
    getF (xs ++ ys) k =
      match getF xs k with
      | some v => some v
      | none => getF ys k := by
  induction xs with
  | nil => rfl
  | cons p rest ih =>
    obtain ⟨k0, v0⟩ := p
    rw [List.cons_append, getF_cons, getF_cons]
    by_cases hk : k0 = k
    · rw [if_pos hk, if_pos hk]
    · rw [if_neg hk, if_neg hk, ih]

theorem getF_moveToEnd_ne {e : Event} {k0 : Str} {e' : Event} (k : Str)
    (h : moveToEnd e k0 = some e') (hne : k ≠ k0) : getF e' k = getF e k := by
  unfold moveToEnd at h
  rcases hf : getF e k0 with _ | v
  · rw [hf] at h; exact Option.noConfusion h
  · rw [hf] at h
    injection h with h
    subst h
    rw [getF_append, getF_popF_ne e k0 k (fun hcc => hne hcc.symm)]
    rcases getF e k with _ | w
    · rw [getF_cons, if_neg (fun hcc => hne hcc.symm)]
      rfl
    · rfl

theorem getF_add_extra {e : Event} {desc extra nb : Str} {e' : Event} (k : Str)
    (h : add_extra e desc extra nb = some e') (h1 : k ≠ kEXTRA) (h2 : k ≠ kEND) :
    getF e' k = getF e k := by
  unfold add_extra at h
  rcases hx : getF e kEXTRA with _ | v
  · rw [hx] at h
    rw [getF_moveToEnd_ne k h h2, getF_setF_ne _ _ _ _ (fun hcc => h1 hcc.symm)]
  · rw [hx] at h
    rcases v with v | items
    · exact Option.noConfusion h
    · rw [getF_moveToEnd_ne k h h2, getF_setF_ne _ _ _ _ (fun hcc => h1 hcc.symm)]

theorem GoodEnd_add_time {pe ne pe' : Event}
    (h : add_time pe ne = some pe') (hg : GoodEnd pe) : GoodEnd pe' := by
  unfold add_time replaced_time_str at h
  rcases h1 : get_time ne with _ | tn
  · rw [h1] at h; exact Option.noConfusion h
  · rw [h1] at h
    rcases h2 : get_time pe with _ | tp
    · rw [h2] at h; simp at h
    · rw [h2] at h
      rcases h3 : getS pe kSUMMARY with _ | s
      · rw [h3] at h; simp at h
      · rw [h3] at h
        simp only [Option.bind_eq_bind, Option.some_bind, pure] at h
        rcases h4 : getS ne kDESC with _ | nd
        · rw [h4] at h; simp at h
        · rw [h4] at h
          simp only [Option.some_bind] at h
          obtain ⟨t, ht, htm, hget⟩ := hg
          refine ⟨t, ht, htm, ?_⟩
          rw [getF_add_extra kDATE_END h (by decide) (by decide),
            getF_setF_ne _ _ _ _ (by decide)]
          exact hget

theorem GoodEnd_merge_event {pe ne pe' : Event}
    (h : merge_event pe ne = some pe') (hg : GoodEnd ne) : GoodEnd pe' := by
  unfold merge_event replace_day_str at h
  obtain ⟨t, ht, htm, hget⟩ := hg
  rw [hget] at h
  simp only [Option.bind_eq_bind, Option.some_bind] at h
  rcases h1 : get_last_date_after_date ne with _ | la
  · rw [h1] at h; simp at h
  · rw [h1] at h
    rcases h2 : get_date_date (setF pe kDATE_END (.s (formatDate t))) with _ | pd
    · rw [h2] at h; simp at h
    · rw [h2] at h
      rcases h3 : getS (setF pe kDATE_END (.s (formatDate t))) kSUMMARY with _ | s
      · rw [h3] at h; simp at h
      · rw [h3] at h
        simp only [Option.bind_eq_bind, Option.some_bind, pure] at h
        rcases h4 : get_date_str ne with _ | r
        · rw [h4] at h; simp at h
        · rw [h4] at h
          simp only [Option.some_bind] at h
          rcases h5 : getS ne kDESC with _ | nd
          · rw [h5] at h; simp at h
          · rw [h5] at h
            simp only [Option.some_bind] at h
            refine ⟨t, ht, htm, ?_⟩
            rw [getF_add_extra kDATE_END h (by decide) (by decide),
              getF_setF_ne _ _ _ _ (by decide), getF_setF_self]

theorem step2_GoodEnd {prev : Option Event} {ne acc : Event} {outs : List PrintedEv}
    (h : step2 prev ne = some (acc, outs))
    (hprev : ∀ pe, prev = some pe → GoodEnd pe) (hne : GoodEnd ne) :
    GoodEnd acc ∧ ∀ pr ∈ outs, ∃ pe, GoodEnd pe ∧ print_dict pe = some pr := by
  rcases prev with _ | pe
  · simp only [step2, Option.some_inj, Prod.mk.injEq] at h
    obtain ⟨hh1, hh2⟩ := h
    subst hh1
    subst hh2
    exact ⟨hne, by intro pr hpr; simp at hpr⟩
  · have hpe : GoodEnd pe := hprev pe rfl
    simp only [step2] at h
    rcases h1 : is_same_desc pe ne with _ | sd
    · rw [h1] at h; exact Option.noConfusion h
    · rw [h1] at h
      simp only [Option.bind_eq_bind, Option.some_bind] at h
      have hflush : ∀ (hh : (do
            let pr ← print_dict pe
            pure (ne, [pr]) : Option (Event × List PrintedEv)) = some (acc, outs)),
          GoodEnd acc ∧ ∀ pr ∈ outs, ∃ pe2, GoodEnd pe2 ∧ print_dict pe2 = some pr := by
        intro hh
        rcases hp : print_dict pe with _ | pr0
        · rw [hp] at hh; exact Option.noConfusion hh
        · rw [hp] at hh
          simp only [Option.bind_eq_bind, Option.some_bind, pure, Option.some_inj,
            Prod.mk.injEq] at hh
          obtain ⟨hh1, hh2⟩ := hh
          subst hh1
          subst hh2
          refine ⟨hne, ?_⟩
          intro pr hpr
          simp only [List.mem_singleton] at hpr
          subst hpr
          exact ⟨pe, hpe, hp⟩
      rcases sd with _ | _
      · exact hflush h
      · simp only [if_true] at h
        rcases h2 : is_same_date pe ne with _ | sdate
        · rw [h2] at h; exact Option.noConfusion h
        · rw [h2] at h
          simp only [Option.some_bind] at h
          rcases sdate with _ | _
          · simp only [Bool.false_eq_true, if_false] at h
            rcases h3 : is_full_day pe with _ | f1
            · rw [h3] at h; exact Option.noConfusion h
            · rw [h3] at h
              simp only [Option.some_bind] at h
              rcases f1 with _ | _
              · exact hflush h
              · simp only [if_true] at h
                rcases h4 : is_next_date pe ne with _ | nx
                · rw [h4] at h; exact Option.noConfusion h
                · rw [h4] at h
                  simp only [Option.some_bind] at h
                  rcases nx with _ | _
                  · exact hflush h
                  · simp only [if_true] at h
                    rcases h5 : is_full_day ne with _ | f2
                    · rw [h5] at h; exact Option.noConfusion h
                    · rw [h5] at h
                      simp only [Option.some_bind] at h
                      rcases f2 with _ | _
                      · exact hflush h
                      · simp only [if_true] at h
                        rcases h6 : merge_event pe ne with _ | pe1
                        · rw [h6] at h; exact Option.noConfusion h
                        · rw [h6] at h
                          simp only [Option.bind_eq_bind, Option.some_bind, pure,
                            Option.some_inj, Prod.mk.injEq] at h
                          obtain ⟨hh1, hh2⟩ := h
                          subst hh1
                          subst hh2
                          refine ⟨GoodEnd_merge_event h6 hne, ?_⟩
                          intro pr hpr
                          simp at hpr
          · simp only [if_true] at h
            rcases h3 : add_time pe ne with _ | pe1
            · rw [h3] at h; exact Option.noConfusion h
            · rw [h3] at h
              simp only [Option.bind_eq_bind, Option.some_bind, pure, Option.some_inj,
                Prod.mk.injEq] at h
              obtain ⟨hh1, hh2⟩ := h
              subst hh1
              subst hh2
              refine ⟨GoodEnd_add_time h3 hpe, ?_⟩
              intro pr hpr
              simp at hpr

theorem processEvents_GoodEnd :
    ∀ (events : List Event) (prev fin : Option Event) (out : List PrintedEv),
    processEvents prev events = some (fin, out) →
    (∀ pe, prev = some pe → GoodEnd pe) →
    (∀ e ∈ events, GoodEnd e) →
    (∀ pe, fin = some pe → GoodEnd pe) ∧
      (∀ pr ∈ out, ∃ pe, GoodEnd pe ∧ print_dict pe = some pr) := by
  intro events
  induction events with
  | nil =>
    intro prev fin out h hprev _
    simp only [processEvents, Option.some_inj, Prod.mk.injEq] at h
    obtain ⟨h1, h2⟩ := h
    subst h1
    subst h2
    refine ⟨hprev, ?_⟩
    intro pr hpr
    simp at hpr
  | cons e rest ih =>
    intro prev fin out h hprev hall
    simp only [processEvents] at h
    rcases h1 : step2 prev e with _ | p1
    · rw [h1] at h; exact Option.noConfusion h
    · rw [h1] at h
      obtain ⟨acc, out1⟩ := p1
      simp only [Option.bind_eq_bind, Option.some_bind] at h
      rcases h2 : processEvents (some acc) rest with _ | p2
      · rw [h2] at h; exact Option.noConfusion h
      · rw [h2] at h
        obtain ⟨fin2, out2⟩ := p2
        simp only [Option.some_bind, pure, Option.some_inj, Prod.mk.injEq] at h
        obtain ⟨hf, ho⟩ := h
        have hstep := step2_GoodEnd h1 hprev (hall e (by simp))
        have hrest := ih (some acc) fin2 out2 h2
          (fun pe hpe => by injection hpe with hpe; exact hpe ▸ hstep.1)
          (fun x hx => hall x (List.mem_cons_of_mem _ hx))
        constructor
        · intro pe hpe
          exact hrest.1 pe (by rw [hf]; exact hpe)
        · intro pr hpr
          rw [← ho] at hpr
          rcases List.mem_append.mp hpr with hm | hm
          · exact hstep.2 pr hm
          · exact hrest.2 pr hm

theorem mapM_find_key : ∀ (e1 : Event) (printed : List (Str × Str)) (k w : Str),
    e1.mapM (fun p =>
      match p.2 with
      | FVal.s v => some (p.1, if p.1 = kDESC ∨ p.1 = kSUMMARY then beautify v else v)
      | FVal.l _ => none) = some printed →
    k ≠ kDESC → k ≠ kSUMMARY → getF e1 k = some (.s w) →
    (printed.find? (fun p => p.1 == k)).map (·.2) = some w := by
  intro e1
  induction e1 with
  | nil =>
    intro printed k w _ _ _ hget
    exact Option.noConfusion hget
  | cons p rest ih =>
    intro printed k w h hk1 hk2 hget
    rw [List.mapM_cons] at h
    rcases hp : (match p.2 with
      | FVal.s v => some (p.1, if p.1 = kDESC ∨ p.1 = kSUMMARY then beautify v else v)
      | FVal.l _ => none) with _ | q
    · rw [hp] at h; simp at h
    · rw [hp] at h
      rcases hrest : rest.mapM (fun p =>
        match p.2 with
        | FVal.s v => some (p.1, if p.1 = kDESC ∨ p.1 = kSUMMARY then beautify v else v)
        | FVal.l _ => none) with _ | printed'
      · rw [hrest] at h; simp at h
      · rw [hrest] at h
        simp only [Option.bind_eq_bind, Option.some_bind, pure, Option.some_inj] at h
        subst h
        obtain ⟨pk, pv⟩ := p
        rw [getF_cons] at hget
        by_cases hpk : pk = k
        · rw [if_pos hpk] at hget
          injection hget with hget
          subst hget
          simp only [Option.some_inj] at hp
          have hcond : ¬ (pk = kDESC ∨ pk = kSUMMARY) := by
            rw [hpk]; rintro (hc | hc) <;> [exact hk1 hc; exact hk2 hc]
          rw [if_neg hcond] at hp
          rw [List.find?_cons_of_pos _ (by rw [← hp]; simpa using hpk)]
          rw [← hp]
          rfl
        · rw [if_neg hpk] at hget
          have hq1 : q.1 = pk := by
            rcases pv with v | items
            · simp only [Option.some_inj] at hp; rw [← hp]
            · simp at hp
          rw [List.find?_cons_of_neg _ (by simpa [hq1] using hpk)]
          exact ih printed' k w hrest hk1 hk2 hget

theorem print_dict_getF {e : Event} {pr : PrintedEv} {k w : Str}
    (h : print_dict e = some pr) (hk1 : k ≠ kDESC) (hk2 : k ≠ kSUMMARY)
    (hk3 : k ≠ kEXTRA) (hw : getF e k = some (.s w)) : printedGet pr k = some w := by
  unfold print_dict at h
  rcases hx : getF e kEXTRA with _ | ex
  · rw [hx] at h
    simp only [Option.bind_eq_bind, Option.some_bind, pure] at h
    rcases hm : e.mapM (fun p =>
      match p.2 with
      | FVal.s v => some (p.1, if p.1 = kDESC ∨ p.1 = kSUMMARY then beautify v else v)
      | FVal.l _ => none) with _ | printed
    · rw [hm] at h; simp at h
    · rw [hm] at h
      simp only [Option.some_bind] at h
      rcases hrev : e.reverse with _ | ⟨lastF, revRest⟩
      · rw [hrev] at h; simp at h
      · rw [hrev] at h
        simp only [Option.some_inj] at h
        subst h
        exact mapM_find_key e printed k w hm hk1 hk2 hw
  · rw [hx] at h
    rcases hd : getS e kDESC with _ | d
    · rw [hd] at h; simp at h
    · rw [hd] at h
      simp only [Option.bind_eq_bind, Option.some_bind, pure] at h
      set e1 := popF (setF e kDESC (.s (d ++ ": ".data ++ fvalRepr ex))) kEXTRA with he1
      rcases hm : e1.mapM (fun p =>
        match p.2 with
        | FVal.s v => some (p.1, if p.1 = kDESC ∨ p.1 = kSUMMARY then beautify v else v)
        | FVal.l _ => none) with _ | printed
      · rw [hm] at h; simp at h
      · rw [hm] at h
        simp only [Option.some_bind] at h
        rcases hrev : e1.reverse with _ | ⟨lastF, revRest⟩
        · rw [hrev] at h; simp at h
        · rw [hrev] at h
          simp only [Option.some_inj] at h
          subst h
          have hw1 : getF e1 k = some (.s w) := by
            rw [he1, getF_popF_ne _ _ _ (fun hc => hk3 hc.symm),
              getF_setF_ne _ _ _ _ (fun hc => hk1 hc.symm)]
            exact hw
          exact mapM_find_key e1 printed k w hm hk1 hk2 hw1

/-- C4: the exclusive-end-date contract.  (1) Every event emitted by the
consolidation engine — flushed singleton, flush-and-start, or merge-extended
accumulator, including the end-of-stream flush — carries an `END` date, and
that date is exactly one calendar day past the event's last covered day
(`prevDay` of the exclusive end, the value `get_last_date_str` computes).
(2) An event that arrives with no explicit end leaves the normalizer with
`END = next_day(START)`. -/
theorem C4_exclusive_end :
    (∀ (events : List Event) (out : List PrintedEv),
      (∀ e ∈ events, GoodEnd e) → runEngine events = some out →
      ∀ pr ∈ out, ∃ t : Date, t.Valid ∧ t ≠ minDate ∧
        printedGet pr kDATE_END = some (formatDate t) ∧
        formatDate t = formatDate (nextDay (prevDay t))) ∧
    (∀ (e : Event) (s : Date) (e' : Event) (log : List Str),
      hasF e kDATE_END = false →
      getF e kORIG_DATE_START = none → getF e kORIG_DATE_END = none →
      getS e kDATE_START = some (formatDate s) → s.Valid → s ≠ maxDate →
      clean_event e = some (e', log) →
      getF e' kDATE_END = some (.s (formatDate (nextDay s)))) := by
  constructor
  · intro events out hall h
    unfold runEngine at h
    rcases h1 : processEvents none events with _ | p1
    · rw [h1] at h; exact Option.noConfusion h
    · rw [h1] at h
      obtain ⟨fin, out1⟩ := p1
      simp only [Option.bind_eq_bind, Option.some_bind] at h
      rcases h2 : flushFinal fin with _ | lastP
      · rw [h2] at h; simp at h
      · rw [h2] at h
        simp only [Option.some_bind, pure, Option.some_inj] at h
        subst h
        have hinv := processEvents_GoodEnd events none fin out1 h1
          (fun pe hpe => Option.noConfusion hpe) hall
        intro pr hpr
        have hone : ∃ pe, GoodEnd pe ∧ print_dict pe = some pr := by
          rcases List.mem_append.mp hpr with hm | hm
          · exact hinv.2 pr hm
          · simp only [List.mem_singleton] at hm
            subst hm
            rcases fin with _ | pe
            · exact Option.noConfusion h2
            · exact ⟨pe, hinv.1 pe rfl, h2⟩
        obtain ⟨pe, ⟨t, ht, htm, hget⟩, hpd⟩ := hone
        refine ⟨t, ht, htm, ?_, ?_⟩
        · exact print_dict_getF hpd (by decide) (by decide) (by decide) hget
        · rw [nextDay_prevDay ht htm]
  · intro e s e' log hno ho1 ho2 hstart hs hsmax h
    unfold clean_event at h
    have hnd : date_next_day_str (formatDate s) = some (formatDate (nextDay s)) := by
      simp [date_next_day_str, parseDate_formatDate _ hs, hsmax]
    have hd1 : clean_default_end e =
        moveToEnd (setF e kDATE_END (.s (formatDate (nextDay s)))) kEND := by
      simp [clean_default_end, hno, hstart, hnd]
    rw [hd1] at h
    rcases hmv : moveToEnd (setF e kDATE_END (.s (formatDate (nextDay s)))) kEND with _ | e1
    · rw [hmv] at h; exact Option.noConfusion h
    · rw [hmv] at h
      simp only [Option.bind_eq_bind, Option.some_bind] at h
      have he1end : getF e1 kDATE_END = some (.s (formatDate (nextDay s))) := by
        rw [getF_moveToEnd_ne _ hmv (by decide), getF_setF_self]
      have he1o1 : getF e1 kORIG_DATE_START = none := by
        rw [getF_moveToEnd_ne _ hmv (by decide), getF_setF_ne _ _ _ _ (by decide)]
        exact ho1
      have he1o2 : getF e1 kORIG_DATE_END = none := by
        rw [getF_moveToEnd_ne _ hmv (by decide), getF_setF_ne _ _ _ _ (by decide)]
        exact ho2
      have ht1 : clean_take_orig kORIG_DATE_START e1 = some (none, e1) := by
        simp [clean_take_orig, he1o1]
      have ht2 : clean_take_orig kORIG_DATE_END e1 = some (none, e1) := by
        simp [clean_take_orig, he1o2]
      rw [ht1] at h
      simp only [Option.some_bind] at h
      rw [ht2] at h
      simp only [Option.some_bind] at h
      unfold clean_instants at h
      rcases hsm : getS e1 kSUMMARY with _ | sm
      · rw [hsm] at h
        exact Option.noConfusion h
      · rw [hsm] at h
        simp only [Option.bind_eq_bind, Option.some_bind] at h
        by_cases h7 : 7 ≤ get_hours sm
        · rw [if_pos h7] at h
          simp only [pure, Option.some_inj, Prod.mk.injEq] at h
          obtain ⟨h1, h2⟩ := h
          rw [← h1, getF_setF_ne _ _ _ _ (by decide)]
          exact he1end
        · rw [if_neg h7] at h
          simp only [pure, Option.some_inj, Prod.mk.injEq] at h
          obtain ⟨h1, h2⟩ := h
          rw [← h1]
          exact he1end

theorem C4_witness :
    ((∀ e ∈ [[("BEGIN".data, FVal.s "VEVENT".data),
              (kDATE_START, FVal.s "20230103".data),
              (kSUMMARY, FVal.s "w".data), (kDESC, FVal.s "t".data),
              (kDATE_END, FVal.s "20230104".data), (kEND, FVal.s "VEVENT".data)]],
        GoodEnd e) ∧
      (∃ t : Date, t.Valid ∧ t ≠ minDate ∧
        printedGet ([("BEGIN".data, "VEVENT".data), ("DTSTART".data, "20230103".data),
            ("SUMMARY".data, "W".data), ("DESCRIPTION".data, "T".data),
            ("DTEND".data, "20230104".data), ("END".data, "VEVENT".data)], true)
          kDATE_END = some (formatDate t) ∧
        formatDate t = formatDate (nextDay (prevDay t)))) ∧
    (getF [("BEGIN".data, FVal.s "VEVENT".data),
           (kDATE_START, FVal.s "20230103".data),
           (kSUMMARY, FVal.s "w".data), (kDESC, FVal.s "t".data),
           (kDATE_END, FVal.s (formatDate (nextDay ⟨2023, 1, 3⟩))),
           (kEND, FVal.s "VEVENT".data)] kDATE_END =
        some (.s (formatDate (nextDay ⟨2023, 1, 3⟩)))) := by
  refine ⟨⟨?_, ?_⟩, ?_⟩
  · intro e he
    simp only [List.mem_singleton] at he
    subst he
    exact ⟨⟨2023, 1, 4⟩, by decide, by decide, by decide⟩
  · exact C4_exclusive_end.1
      [[("BEGIN".data, FVal.s "VEVENT".data), (kDATE_START, FVal.s "20230103".data),
        (kSUMMARY, FVal.s "w".data), (kDESC, FVal.s "t".data),
        (kDATE_END, FVal.s "20230104".data), (kEND, FVal.s "VEVENT".data)]]
      [([("BEGIN".data, "VEVENT".data), ("DTSTART".data, "20230103".data),
          ("SUMMARY".data, "W".data), ("DESCRIPTION".data, "T".data),
          ("DTEND".data, "20230104".data), ("END".data, "VEVENT".data)], true)]
      (by intro e he
          simp only [List.mem_singleton] at he
          subst he
          exact ⟨⟨2023, 1, 4⟩, by decide, by decide, by decide⟩)
      (by decide)
      ([("BEGIN".data, "VEVENT".data), ("DTSTART".data, "20230103".data),
          ("SUMMARY".data, "W".data), ("DESCRIPTION".data, "T".data),
          ("DTEND".data, "20230104".data), ("END".data, "VEVENT".data)], true)
      (by decide)
  · exact C4_exclusive_end.2
      [("BEGIN".data, FVal.s "VEVENT".data), (kDATE_START, FVal.s "20230103".data),
       (kSUMMARY, FVal.s "w".data), (kDESC, FVal.s "t".data),
       (kEND, FVal.s "VEVENT".data)]
      ⟨2023, 1, 3⟩
      [("BEGIN".data, FVal.s "VEVENT".data), (kDATE_START, FVal.s "20230103".data),
       (kSUMMARY, FVal.s "w".data), (kDESC, FVal.s "t".data),
       (kDATE_END, FVal.s (formatDate (nextDay ⟨2023, 1, 3⟩))),
       (kEND, FVal.s "VEVENT".data)]
      [] (by decide) (by decide) (by decide) (by decide) (by decide) (by decide)
      (by decide)

/-! ## String lemmas: digits and the duration-tag regexes -/

theorem natCharsAux_fuel : ∀ (n : Nat) (f1 f2 : Nat), n < f1 → n < f2 →
    natCharsAux f1 n = natCharsAux f2 n := by
  intro n
  induction n using Nat.strong_induction_on with
  | _ n ih =>
    intro f1 f2 h1 h2
    rcases f1 with _ | f1'
    · omega
    rcases f2 with _ | f2'
    · omega
    show (if n < 10 then [digitChar n] else natCharsAux f1' (n / 10) ++ [digitChar n]) =
      (if n < 10 then [digitChar n] else natCharsAux f2' (n / 10) ++ [digitChar n])
    by_cases hn : n < 10
    · rw [if_pos hn, if_pos hn]
    · rw [if_neg hn, if_neg hn,
        ih (n / 10) (by omega) f1' f2' (by omega) (by omega)]

theorem natChars_unfold (n : Nat) :
    natChars n = if n < 10 then [digitChar n] else natChars (n / 10) ++ [digitChar n] := by
  show natCharsAux (n + 1) n = _
  show (if n < 10 then [digitChar n] else natCharsAux n (n / 10) ++ [digitChar n]) = _
  by_cases hn : n < 10
  · rw [if_pos hn, if_pos hn]
  · rw [if_neg hn, if_neg hn,
      natCharsAux_fuel (n / 10) n (n / 10 + 1) (by omega) (by omega)]
    rfl

theorem natChars_digits : ∀ (n : Nat) (c : Char), c ∈ natChars n → isDigitC c = true := by
  intro n
  induction n using Nat.strong_induction_on with
  | _ n ih =>
    intro c hc
    rw [natChars_unfold] at hc
    by_cases hn : n < 10
    · rw [if_pos hn] at hc
      simp only [List.mem_singleton] at hc
      subst hc
      exact isDigitC_digitChar n
    · rw [if_neg hn] at hc
      rcases List.mem_append.mp hc with hm | hm
      · exact ih (n / 10) (Nat.div_lt_self (by omega) (by omega)) c hm
      · simp only [List.mem_singleton] at hm
        subst hm
        exact isDigitC_digitChar n

theorem natChars_ne_nil (n : Nat) : natChars n ≠ [] := by
  rw [natChars_unfold]
  by_cases hn : n < 10
  · rw [if_pos hn]; simp
  · rw [if_neg hn]; simp

theorem charsToNat_concat (xs : Str) (c : Char) :
    charsToNat (xs ++ [c]) = charsToNat xs * 10 + digitVal c := by
  unfold charsToNat
  rw [List.foldl_append]
  rfl

theorem charsToNat_natChars : ∀ n : Nat, charsToNat (natChars n) = n := by
  intro n
  induction n using Nat.strong_induction_on with
  | _ n ih =>
    rw [natChars_unfold]
    by_cases hn : n < 10
    · rw [if_pos hn]
      show charsToNat ([] ++ [digitChar n]) = n
      rw [charsToNat_concat, digitVal_digitChar]
      show 0 * 10 + n % 10 = n
      omega
    · rw [if_neg hn, charsToNat_concat, digitVal_digitChar,
        ih (n / 10) (Nat.div_lt_self (by omega) (by omega))]
      omega

theorem intChars_ofNat (n : Nat) : intChars (n : Int) = natChars n := by
  unfold intChars
  rw [if_neg (by omega)]
  simp

theorem DigitStr_natChars (n : Nat) : DigitStr (natChars n) :=
  ⟨natChars_ne_nil n, natChars_digits n⟩

theorem takeDigits_cons (c : Char) (cs : Str) :
    takeDigits (c :: cs) =
      if isDigitC c then ((c :: (takeDigits cs).1, (takeDigits cs).2) : Str × Str)
      else ([], c :: cs) := by
  by_cases hd : isDigitC c
  · simp [takeDigits, hd]
  · simp [takeDigits, hd]

theorem takeDigits_spec : ∀ l : Str,
    (takeDigits l).1 ++ (takeDigits l).2 = l ∧
    (∀ c ∈ (takeDigits l).1, isDigitC c = true) ∧
    (∀ c z, (takeDigits l).2 = c :: z → isDigitC c = false) := by
  intro l
  induction l with
  | nil => exact ⟨rfl, by intro c hc; simp [takeDigits] at hc, by intro c z h; simp [takeDigits] at h⟩
  | cons c0 rest ih =>
    rw [takeDigits_cons]
    by_cases hd : isDigitC c0
    · rw [if_pos hd]
      refine ⟨by simpa using ih.1, ?_, ?_⟩
      · intro c hc
        rcases List.mem_cons.mp hc with heq | hm
        · subst heq; exact hd
        · exact ih.2.1 c hm
      · exact ih.2.2
    · rw [if_neg hd]
      refine ⟨rfl, by intro c hc; simp at hc, ?_⟩
      intro c z h
      injection h with h1 h2
      subst h1
      simpa using hd

theorem takeDigits_digits_append {ds : Str} (hds : ∀ c ∈ ds, isDigitC c = true) :
    ∀ (c0 : Char) (z : Str), isDigitC c0 = false →
    takeDigits (ds ++ c0 :: z) = (ds, c0 :: z) := by
  induction ds with
  | nil =>
    intro c0 z h0
    show takeDigits (c0 :: z) = ([], c0 :: z)
    rw [takeDigits_cons, if_neg (by simp [h0])]
  | cons d ds' ih =>
    intro c0 z h0
    have hd : isDigitC d = true := hds d (by simp)
    show takeDigits (d :: (ds' ++ c0 :: z)) = (d :: ds', c0 :: z)
    rw [takeDigits_cons, if_pos hd, ih (fun c hc => hds c (List.mem_cons_of_mem _ hc)) c0 z h0]

theorem matchParen_cons (units : List Char) (c : Char) (rest : Str) :
    matchParen units (c :: rest) =
      if c = '(' then
        match takeDigits rest with
        | (_, []) => none
        | (ds, u :: rest2) =>
          match rest2 with
          | [] => none
          | c2 :: rest3 =>
            if ds ≠ [] ∧ u ∈ units ∧ c2 = ')' then some (ds, rest3) else none
      else none := rfl

theorem matchParen_tag {units : List Char} {ds : Str} {u : Char}
    (hds : DigitStr ds) (hu : u ∈ units) (hund : isDigitC u = false) (z : Str) :
    matchParen units (parenTag ds u ++ z) = some (ds, z) := by
  obtain ⟨hne, hdig⟩ := hds
  have hsh : parenTag ds u ++ z = '(' :: (ds ++ u :: ')' :: z) := by
    simp [parenTag]
  rw [hsh, matchParen_cons, if_pos rfl,
    takeDigits_digits_append hdig u (')' :: z) hund]
  exact if_pos ⟨hne, hu, rfl⟩

theorem matchParen_not_lparen {units : List Char} {c : Char} (hc : c ≠ '(') (l : Str) :
    matchParen units (c :: l) = none := by
  rw [matchParen_cons, if_neg hc]

theorem matchParen_some_shape {units : List Char} {l : Str} {ds r : Str}
    (h : matchParen units l = some (ds, r)) :
    ∃ u, u ∈ units ∧ DigitStr ds ∧ l = parenTag ds u ++ r := by
  rcases l with _ | ⟨c, rest⟩
  · exact Option.noConfusion h
  · rw [matchParen_cons] at h
    by_cases hc : c = '('
    · rw [if_pos hc] at h
      rcases hs : takeDigits rest with ⟨p1, p2⟩
      rw [hs] at h
      rcases p2 with _ | ⟨u, p2'⟩
      · exact Option.noConfusion h
      rcases p2' with _ | ⟨c2, rest3⟩
      · exact Option.noConfusion h
      dsimp only [] at h
      by_cases hcond : p1 ≠ [] ∧ u ∈ units ∧ c2 = ')'
      · rw [if_pos hcond] at h
        have hpair : p1 = ds ∧ rest3 = r := by
          have := Option.some.inj h
          exact ⟨congrArg Prod.fst this, congrArg Prod.snd this⟩
        obtain ⟨hd1, hd2⟩ := hpair
        have hspec := takeDigits_spec rest
        rw [hs] at hspec
        refine ⟨u, hcond.2.1, ⟨?_, ?_⟩, ?_⟩
        · rw [← hd1]; exact hcond.1
        · intro c hcm
          exact hspec.2.1 c (by rw [← hd1] at hcm; exact hcm)
        · subst hc
          have hrest : p1 ++ u :: c2 :: rest3 = rest := hspec.1
          rw [hcond.2.2] at hrest
          rw [← hrest, ← hd1, ← hd2]
          simp [parenTag]
      · rw [if_neg hcond] at h
        exact Option.noConfusion h
    · rw [if_neg hc] at h
      exact Option.noConfusion h

theorem findParen_cons (units : List Char) (c : Char) (cs : Str) :
    findParen units (c :: cs) =
      match matchParen units (c :: cs) with
      | some (ds, _) => some ds
      | none => findParen units cs := rfl

theorem findParen_skip {units : List Char} : ∀ {xs : Str}, '(' ∉ xs → ∀ (ys : Str),
    findParen units (xs ++ ys) = findParen units ys := by
  intro xs
  induction xs with
  | nil => intro _ ys; rfl
  | cons c rest ih =>
    intro hnp ys
    have hc : c ≠ '(' := fun hcc => hnp (hcc ▸ List.mem_cons_self c rest)
    show findParen units (c :: (rest ++ ys)) = findParen units ys
    rw [findParen_cons, matchParen_not_lparen hc]
    exact ih (fun hm => hnp (List.mem_cons_of_mem _ hm)) ys

theorem findParen_tag {units : List Char} {ds : Str} {u : Char}
    (hds : DigitStr ds) (hu : u ∈ units) (hund : isDigitC u = false) (z : Str) :
    findParen units (parenTag ds u ++ z) = some ds := by
  have hsh : parenTag ds u ++ z = '(' :: (ds ++ u :: ')' :: z) := by
    simp [parenTag]
  rw [hsh, findParen_cons]
  have hm := matchParen_tag hds hu hund z
  rw [hsh] at hm
  rw [hm]

theorem parenTag_length {ds : Str} (hds : DigitStr ds) (u : Char) :
    4 ≤ (parenTag ds u).length := by
  obtain ⟨hne, _⟩ := hds
  rcases ds with _ | ⟨d, ds'⟩
  · exact absurd rfl hne
  · simp [parenTag]

theorem matchParen_some_length {units : List Char} {l ds r : Str}
    (h : matchParen units l = some (ds, r)) : r.length + 4 ≤ l.length := by
  obtain ⟨u, _, hds, hl⟩ := matchParen_some_shape h
  have := parenTag_length hds u
  subst hl
  simp only [List.length_append]
  omega

theorem subParenAux_nil (units : List Char) (repl : Str) :
    ∀ f, subParenAux units repl f [] = [] := by
  intro f
  cases f <;> rfl

theorem subParenAux_cons (units : List Char) (repl : Str) (fuel : Nat) (c : Char) (cs : Str) :
    subParenAux units repl (fuel + 1) (c :: cs) =
      match matchParen units (c :: cs) with
      | some (_, rest) => repl ++ subParenAux units repl fuel rest
      | none => c :: subParenAux units repl fuel cs := rfl

theorem subParenAux_fuel {units : List Char} {repl : Str} :
    ∀ (n : Nat) (l : Str), l.length ≤ n → ∀ (f1 f2 : Nat), l.length ≤ f1 → l.length ≤ f2 →
    subParenAux units repl f1 l = subParenAux units repl f2 l := by
  intro n
  induction n using Nat.strong_induction_on with
  | _ n ih =>
    intro l hln f1 f2 h1 h2
    rcases l with _ | ⟨c, cs⟩
    · rw [subParenAux_nil, subParenAux_nil]
    · simp only [List.length_cons] at hln h1 h2
      rcases f1 with _ | f1'
      · omega
      rcases f2 with _ | f2'
      · omega
      rcases n with _ | n'
      · omega
      rw [subParenAux_cons, subParenAux_cons]
      rcases hm : matchParen units (c :: cs) with _ | ⟨ds, rest⟩
      · dsimp only []
        rw [ih n' (by omega) cs (by omega) f1' f2' (by omega) (by omega)]
      · have hlen := matchParen_some_length hm
        simp only [List.length_cons] at hlen
        dsimp only []
        rw [ih n' (by omega) rest (by omega) f1' f2' (by omega) (by omega)]

theorem subParenAux_skip {units : List Char} {repl : Str} :
    ∀ (xs : Str), '(' ∉ xs → ∀ (ys : Str) (f : Nat), xs.length + ys.length ≤ f →
    subParenAux units repl f (xs ++ ys) = xs ++ subParenAux units repl ys.length ys := by
  intro xs
  induction xs with
  | nil =>
    intro _ ys f hf
    show subParenAux units repl f ys = subParenAux units repl ys.length ys
    exact subParenAux_fuel f ys (by simpa using hf) f ys.length (by simpa using hf) (le_refl _)
  | cons c rest ih =>
    intro hnp ys f hf
    have hc : c ≠ '(' := fun hcc => hnp (hcc ▸ List.mem_cons_self c rest)
    simp only [List.length_cons] at hf
    rcases f with _ | f'
    · omega
    show subParenAux units repl (f' + 1) (c :: (rest ++ ys)) =
      c :: (rest ++ subParenAux units repl ys.length ys)
    rw [subParenAux_cons, matchParen_not_lparen hc]
    show c :: subParenAux units repl f' (rest ++ ys) = _
    rw [ih (fun hm => hnp (List.mem_cons_of_mem _ hm)) ys f' (by omega)]

theorem subParenAux_tag {units : List Char} {repl : Str} {ds : Str} {u : Char}
    (hds : DigitStr ds) (hu : u ∈ units) (hund : isDigitC u = false) :
    ∀ (z : Str) (f : Nat), (parenTag ds u ++ z).length ≤ f →
    subParenAux units repl f (parenTag ds u ++ z) = repl ++ subParenAux units repl z.length z := by
  intro z f hf
  have hlen : 4 ≤ (parenTag ds u).length := parenTag_length hds u
  simp only [List.length_append] at hf
  rcases f with _ | f'
  · omega
  have hsh : parenTag ds u ++ z = '(' :: (ds ++ u :: ')' :: z) := by simp [parenTag]
  rw [hsh, subParenAux_cons]
  have hm := matchParen_tag hds hu hund z
  rw [hsh] at hm
  rw [hm]
  show repl ++ subParenAux units repl f' z = _
  rw [subParenAux_fuel f' z (by omega) f' z.length (by omega) (le_refl _)]

theorem subParen_split {units : List Char} {repl : Str} {xs ds : Str} {u : Char}
    (hxs : '(' ∉ xs) (hds : DigitStr ds) (hu : u ∈ units) (hund : isDigitC u = false)
    (z : Str) :
    subParen units repl (xs ++ parenTag ds u ++ z) = xs ++ repl ++ subParen units repl z := by
  show subParenAux units repl (xs ++ parenTag ds u ++ z).length (xs ++ parenTag ds u ++ z) =
    xs ++ repl ++ subParen units repl z
  rw [List.append_assoc,
    subParenAux_skip xs hxs (parenTag ds u ++ z) _ (by simp [List.length_append]),
    subParenAux_tag hds hu hund z (parenTag ds u ++ z).length (le_refl _)]
  show xs ++ (repl ++ subParen units repl z) = _
  rw [List.append_assoc]

theorem matchSpaced_cons (units : List Char) (c : Char) (rest : Str) :
    matchSpaced units (c :: rest) =
      if c = ' ' then (matchParen units rest).map (·.2) else none := rfl

theorem matchSpaced_none_of {units : List Char} {l : Str}
    (h : ∀ c, l.head? = some c → c ≠ '(') (c0 : Char) :
    matchSpaced units (c0 :: l) = none := by
  rw [matchSpaced_cons]
  by_cases hc : c0 = ' '
  · rw [if_pos hc]
    rcases l with _ | ⟨c1, l'⟩
    · rfl
    · rw [matchParen_not_lparen (h c1 rfl) l']
      rfl
  · rw [if_neg hc]

theorem matchSpaced_tag {units : List Char} {ds : Str} {u : Char}
    (hds : DigitStr ds) (hu : u ∈ units) (hund : isDigitC u = false) (z : Str) :
    matchSpaced units (spacedTag ds u ++ z) = some z := by
  show matchSpaced units (' ' :: (parenTag ds u ++ z)) = some z
  rw [matchSpaced_cons, if_pos rfl, matchParen_tag hds hu hund z]
  rfl

theorem matchSpaced_some_shape {units : List Char} {l r : Str}
    (h : matchSpaced units l = some r) :
    ∃ ds u, u ∈ units ∧ DigitStr ds ∧ l = spacedTag ds u ++ r := by
  rcases l with _ | ⟨c, rest⟩
  · exact Option.noConfusion h
  rw [matchSpaced_cons] at h
  by_cases hc : c = ' '
  · rw [if_pos hc] at h
    rcases hm : matchParen units rest with _ | ⟨ds, r'⟩
    · rw [hm] at h
      exact Option.noConfusion h
    · rw [hm] at h
      have hr : r' = r := by simpa using h
      obtain ⟨u, hu, hds, hrest⟩ := matchParen_some_shape hm
      refine ⟨ds, u, hu, hds, ?_⟩
      rw [hc, hrest, hr]
      rfl
  · rw [if_neg hc] at h
    exact Option.noConfusion h

theorem matchSpaced_some_length {units : List Char} {l r : Str}
    (h : matchSpaced units l = some r) : r.length + 5 ≤ l.length := by
  obtain ⟨ds, u, _, hds, hl⟩ := matchSpaced_some_shape h
  have := parenTag_length hds u
  subst hl
  simp only [spacedTag, List.length_append, List.length_cons]
  omega

theorem hasSpaced_cons (units : List Char) (c : Char) (cs : Str) :
    hasSpaced units (c :: cs) = ((matchSpaced units (c :: cs)).isSome || hasSpaced units cs) := rfl

theorem hasSpaced_append_right {units : List Char} : ∀ (xs : Str) {ys : Str},
    hasSpaced units ys = true → hasSpaced units (xs ++ ys) = true := by
  intro xs
  induction xs with
  | nil => intro ys h; exact h
  | cons c rest ih =>
    intro ys h
    show hasSpaced units (c :: (rest ++ ys)) = true
    rw [hasSpaced_cons, ih h, Bool.or_true]

theorem hasSpaced_tag {units : List Char} {ds : Str} {u : Char}
    (hds : DigitStr ds) (hu : u ∈ units) (hund : isDigitC u = false) (z : Str) :
    hasSpaced units (spacedTag ds u ++ z) = true := by
  have hsh : spacedTag ds u ++ z = ' ' :: (parenTag ds u ++ z) := rfl
  rw [hsh, hasSpaced_cons, ← hsh, matchSpaced_tag hds hu hund z]
  rfl

theorem subSpacedAux_nil (units : List Char) (repl : Str) :
    ∀ f, subSpacedAux units repl f [] = [] := by
  intro f
  cases f <;> rfl

theorem subSpacedAux_cons (units : List Char) (repl : Str) (fuel : Nat) (c : Char) (cs : Str) :
    subSpacedAux units repl (fuel + 1) (c :: cs) =
      match matchSpaced units (c :: cs) with
      | some rest => repl ++ subSpacedAux units repl fuel rest
      | none => c :: subSpacedAux units repl fuel cs := rfl

theorem subSpacedAux_fuel {units : List Char} {repl : Str} :
    ∀ (n : Nat) (l : Str), l.length ≤ n → ∀ (f1 f2 : Nat), l.length ≤ f1 → l.length ≤ f2 →
    subSpacedAux units repl f1 l = subSpacedAux units repl f2 l := by
  intro n
  induction n using Nat.strong_induction_on with
  | _ n ih =>
    intro l hln f1 f2 h1 h2
    rcases l with _ | ⟨c, cs⟩
    · rw [subSpacedAux_nil, subSpacedAux_nil]
    · simp only [List.length_cons] at hln h1 h2
      rcases f1 with _ | f1'
      · omega
      rcases f2 with _ | f2'
      · omega
      rcases n with _ | n'
      · omega
      rw [subSpacedAux_cons, subSpacedAux_cons]
      rcases hm : matchSpaced units (c :: cs) with _ | rest
      · dsimp only []
        rw [ih n' (by omega) cs (by omega) f1' f2' (by omega) (by omega)]
      · have hlen := matchSpaced_some_length hm
        simp only [List.length_cons] at hlen
        dsimp only []
        rw [ih n' (by omega) rest (by omega) f1' f2' (by omega) (by omega)]

theorem subSpacedAux_skip {units : List Char} {repl : Str} :
    ∀ (xs : Str), '(' ∉ xs → ∀ (ys : Str), (∀ c, ys.head? = some c → c ≠ '(') → ∀ (f : Nat),
    xs.length + ys.length ≤ f →
    subSpacedAux units repl f (xs ++ ys) = xs ++ subSpacedAux units repl ys.length ys := by
  intro xs
  induction xs with
  | nil =>
    intro _ ys _ f hf
    show subSpacedAux units repl f ys = subSpacedAux units repl ys.length ys
    exact subSpacedAux_fuel f ys (by simpa using hf) f ys.length (by simpa using hf) (le_refl _)
  | cons c rest ih =>
    intro hnp ys hy f hf
    simp only [List.length_cons] at hf
    rcases f with _ | f'
    · omega
    show subSpacedAux units repl (f' + 1) (c :: (rest ++ ys)) =
      c :: (rest ++ subSpacedAux units repl ys.length ys)
    have hh : ∀ c1, (rest ++ ys).head? = some c1 → c1 ≠ '(' := by
      rcases rest with _ | ⟨r, rs⟩
      · exact hy
      · intro c1 hc1
        have hcr : r = c1 := by simpa using hc1
        subst hcr
        exact fun hcc => hnp (hcc ▸ List.mem_cons_of_mem _ (List.mem_cons_self r rs))
    rw [subSpacedAux_cons, matchSpaced_none_of hh c]
    show c :: subSpacedAux units repl f' (rest ++ ys) = _
    rw [ih (fun hm => hnp (List.mem_cons_of_mem _ hm)) ys hy f' (by omega)]

theorem subSpacedAux_tag {units : List Char} {repl : Str} {ds : Str} {u : Char}
    (hds : DigitStr ds) (hu : u ∈ units) (hund : isDigitC u = false) :
    ∀ (z : Str) (f : Nat), (spacedTag ds u ++ z).length ≤ f →
    subSpacedAux units repl f (spacedTag ds u ++ z) =
      repl ++ subSpacedAux units repl z.length z := by
  intro z f hf
  have hlen : 4 ≤ (parenTag ds u).length := parenTag_length hds u
  simp only [spacedTag, List.cons_append, List.length_cons, List.length_append] at hf
  rcases f with _ | f'
  · omega
  have hsh : spacedTag ds u ++ z = ' ' :: (parenTag ds u ++ z) := rfl
  rw [hsh, subSpacedAux_cons, ← hsh, matchSpaced_tag hds hu hund z]
  show repl ++ subSpacedAux units repl f' z = _
  rw [subSpacedAux_fuel f' z (by omega) f' z.length (by omega) (le_refl _)]

theorem subSpaced_split {units : List Char} {repl : Str} {xs ds : Str} {u : Char}
    (hxs : '(' ∉ xs) (hds : DigitStr ds) (hu : u ∈ units) (hund : isDigitC u = false)
    (z : Str) :
    subSpaced units repl (xs ++ spacedTag ds u ++ z) = xs ++ repl ++ subSpaced units repl z := by
  show subSpacedAux units repl (xs ++ spacedTag ds u ++ z).length (xs ++ spacedTag ds u ++ z) =
    xs ++ repl ++ subSpaced units repl z
  rw [List.append_assoc,
    subSpacedAux_skip xs hxs (spacedTag ds u ++ z) (by intro c hc; simp [spacedTag] at hc; subst hc; decide)
      _ (by simp [List.length_append]),
    subSpacedAux_tag hds hu hund z (spacedTag ds u ++ z).length (le_refl _)]
  show xs ++ (repl ++ subSpaced units repl z) = _
  rw [List.append_assoc]

/-! ## Lemmas for the merge arms: tag readback and rewriting -/

theorem getF_popF_self (e : Event) (k : Str) : getF (popF e k) k = none := by
  induction e with
  | nil => rfl
  | cons p rest ih =>
    obtain ⟨k0, v0⟩ := p
    rw [popF_cons]
    by_cases hk : k0 = k
    · rw [if_pos hk]
      exact ih
    · rw [if_neg hk, getF_cons, if_neg hk]
      exact ih

theorem getF_moveToEnd_self {e : Event} {k : Str} {e' : Event}
    (h : moveToEnd e k = some e') : getF e' k = getF e k := by
  unfold moveToEnd at h
  rcases hf : getF e k with _ | v
  · rw [hf] at h
    exact Option.noConfusion h
  · rw [hf] at h
    injection h with h
    subst h
    rw [getF_append, getF_popF_self]
    show getF [(k, v)] k = some v
    rw [getF_cons, if_pos rfl]

theorem get_num_parenthesis_tag {base ds : Str} {u : Char} (hb : '(' ∉ base)
    (hds : DigitStr ds) (hund : isDigitC u = false) :
    get_num_parenthesis (base ++ parenTag ds u) u = max 1 (charsToNat ds) := by
  unfold get_num_parenthesis
  have h1 : findParen [u] (base ++ parenTag ds u) = some ds := by
    rw [findParen_skip hb]
    have h2 := @findParen_tag [u] ds u hds (List.mem_singleton.mpr rfl) hund []
    rwa [List.append_nil] at h2
  rw [h1]

theorem get_hours_htag {base ds : Str} (hb : '(' ∉ base) (hds : DigitStr ds) :
    get_hours (base ++ parenTag ds 'h') = max 1 (charsToNat ds) := by
  show get_num_parenthesis (base ++ parenTag ds 'h') 'h' = _
  exact get_num_parenthesis_tag hb hds (by decide)

theorem findParen_none_no_lparen {units : List Char} {l : Str} (h : '(' ∉ l) :
    findParen units l = none := by
  rw [← List.append_nil l, findParen_skip h]
  rfl

theorem findParen_tag_wrong_unit {units : List Char} {ds : Str} {u : Char}
    (hds : DigitStr ds) (hu : u ∉ units) (hund : isDigitC u = false) (hu2 : u ≠ '(') :
    findParen units (parenTag ds u) = none := by
  have hsh : parenTag ds u = '(' :: (ds ++ u :: ')' :: []) := by simp [parenTag]
  rw [hsh, findParen_cons]
  have hm : matchParen units ('(' :: (ds ++ u :: ')' :: [])) = none := by
    rw [matchParen_cons, if_pos rfl, takeDigits_digits_append hds.2 u (')' :: []) hund]
    dsimp only []
    rw [if_neg (by intro hcc; exact hu hcc.2.1)]
  rw [hm]
  show findParen units (ds ++ u :: ')' :: []) = none
  refine findParen_none_no_lparen ?_
  intro hmem
  rcases List.mem_append.mp hmem with h1 | h1
  · have := hds.2 '(' h1
    exact absurd this (by decide)
  · simp only [List.mem_cons, List.mem_singleton] at h1
    rcases h1 with h1 | h1 | h1
    · exact hu2 h1.symm
    · exact absurd h1 (by decide)
    · simp at h1

theorem replacedTimeVal_htag {base ds : Str} (hb : '(' ∉ base) (hds : DigitStr ds)
    (n : Nat) :
    replacedTimeVal (base ++ parenTag ds 'h') ((n : Nat) : Int) =
      base ++ parenTag (natChars n) 'h' := by
  unfold replacedTimeVal
  have hsp := @subParen_split ['h'] ('(' :: intChars ((n : Nat) : Int) ++ ['h', ')'])
      base ds 'h' hb hds (List.mem_singleton.mpr rfl) (by decide) []
  rw [List.append_nil] at hsp
  rw [hsp, intChars_ofNat]
  show base ++ ('(' :: natChars n ++ ['h', ')']) ++ [] = _
  rw [List.append_nil]
  rfl

theorem get_time_of_htag {e : Event} {base ds : Str}
    (hs : getS e kSUMMARY = some (base ++ parenTag ds 'h'))
    (hb : '(' ∉ base) (hds : DigitStr ds) :
    get_time e = some (max 1 (charsToNat ds)) := by
  unfold get_time
  rw [hs]
  simp only [Option.bind_eq_bind, Option.some_bind]
  rw [get_hours_htag hb hds, if_pos (show max 1 (charsToNat ds) ≠ 0 by omega)]
  rfl

/-- C3 counterexample: the accumulator's summary carries no `(Nh)` tag
(`"work"`, an implicit 8-hour day), the incoming same-day event logs 2 hours,
yet the add-time merge leaves the summary `"work"` — no duration tag is
rewritten to the 10-hour sum, because `re.sub` inserts nothing when the
pattern is absent — and the single audit note records only the incoming
event's hours (`add time: task [2h]`), so the 10-hour total is recorded
nowhere. -/
theorem C3_counterexample :
    is_same_desc
        [(kDATE_START, FVal.s "20230103".data), (kSUMMARY, FVal.s "work".data),
         (kDESC, FVal.s "task".data), (kDATE_END, FVal.s "20230104".data),
         (kEND, FVal.s "VEVENT".data)]
        [(kDATE_START, FVal.s "20230103".data), (kSUMMARY, FVal.s "work (2h)".data),
         (kDESC, FVal.s "task".data), (kDATE_END, FVal.s "20230104".data),
         (kEND, FVal.s "VEVENT".data)] = some true ∧
    is_same_date
        [(kDATE_START, FVal.s "20230103".data), (kSUMMARY, FVal.s "work".data),
         (kDESC, FVal.s "task".data), (kDATE_END, FVal.s "20230104".data),
         (kEND, FVal.s "VEVENT".data)]
        [(kDATE_START, FVal.s "20230103".data), (kSUMMARY, FVal.s "work (2h)".data),
         (kDESC, FVal.s "task".data), (kDATE_END, FVal.s "20230104".data),
         (kEND, FVal.s "VEVENT".data)] = some true ∧
    get_time
        [(kDATE_START, FVal.s "20230103".data), (kSUMMARY, FVal.s "work".data),
         (kDESC, FVal.s "task".data), (kDATE_END, FVal.s "20230104".data),
         (kEND, FVal.s "VEVENT".data)] = some 8 ∧
    get_time
        [(kDATE_START, FVal.s "20230103".data), (kSUMMARY, FVal.s "work (2h)".data),
         (kDESC, FVal.s "task".data), (kDATE_END, FVal.s "20230104".data),
         (kEND, FVal.s "VEVENT".data)] = some 2 ∧
    (step2
        (some [(kDATE_START, FVal.s "20230103".data), (kSUMMARY, FVal.s "work".data),
               (kDESC, FVal.s "task".data), (kDATE_END, FVal.s "20230104".data),
               (kEND, FVal.s "VEVENT".data)])
        [(kDATE_START, FVal.s "20230103".data), (kSUMMARY, FVal.s "work (2h)".data),
         (kDESC, FVal.s "task".data), (kDATE_END, FVal.s "20230104".data),
         (kEND, FVal.s "VEVENT".data)]).map (fun r => getS r.1 kSUMMARY) =
      some (some "work".data) ∧
    (step2
        (some [(kDATE_START, FVal.s "20230103".data), (kSUMMARY, FVal.s "work".data),
               (kDESC, FVal.s "task".data), (kDATE_END, FVal.s "20230104".data),
               (kEND, FVal.s "VEVENT".data)])
        [(kDATE_START, FVal.s "20230103".data), (kSUMMARY, FVal.s "work (2h)".data),
         (kDESC, FVal.s "task".data), (kDATE_END, FVal.s "20230104".data),
         (kEND, FVal.s "VEVENT".data)]).map (fun r => getF r.1 kEXTRA) =
      some (some (FVal.l ["add time: task [2h]".data])) ∧
    get_hours "work".data = 0 := by
  decide

/-- C3 (amended): when the accumulator's summary does carry an `(Nh)` tag
(`SUMMARY = base ++ "(" ++ ds ++ "h)"` with no `'('` in `base`), the same-day
add-time merge rewrites that tag to the summed hours, appends exactly one
audit note to the EXTRA list, repositions the END terminator last, and leaves
every other field unchanged; and the concrete 2h/3h same-description same-day
pair sums to a `(5h)` tag in either arrival order. -/
theorem C3_add_time :
    (∀ (pe ne : Event) (base ds nd : Str) (tn : Nat) (endv : FVal),
      is_same_desc pe ne = some true →
      is_same_date pe ne = some true →
      getS pe kSUMMARY = some (base ++ parenTag ds 'h') →
      '(' ∉ base →
      DigitStr ds →
      get_time ne = some tn →
      getS ne kDESC = some nd →
      (getF pe kEXTRA = none ∨ ∃ items, getF pe kEXTRA = some (FVal.l items)) →
      getF pe kEND = some endv →
      ∃ pe',
        step2 (some pe) ne = some (pe', []) ∧
        getS pe' kSUMMARY =
          some (base ++ parenTag (natChars (max 1 (charsToNat ds) + tn)) 'h') ∧
        get_hours (base ++ parenTag (natChars (max 1 (charsToNat ds) + tn)) 'h') =
          max 1 (charsToNat ds) + tn ∧
        (∃ items0,
          (getF pe kEXTRA = some (FVal.l items0) ∨
            (getF pe kEXTRA = none ∧ items0 = [])) ∧
          getF pe' kEXTRA = some (FVal.l (items0 ++
            ["add time".data ++ ": ".data ++ nd ++ " [".data ++
              (natChars tn ++ "h".data) ++ "]".data]))) ∧
        (∀ k, k ≠ kSUMMARY → k ≠ kEXTRA → k ≠ kEND → getF pe' k = getF pe k) ∧
        getF pe' kEND = getF pe kEND ∧
        lastKey pe' = some kEND) ∧
    ((step2
        (some [(kDATE_START, FVal.s "20230103".data), (kSUMMARY, FVal.s "job (2h)".data),
               (kDESC, FVal.s "job".data), (kDATE_END, FVal.s "20230104".data),
               (kEND, FVal.s "VEVENT".data)])
        [(kDATE_START, FVal.s "20230103".data), (kSUMMARY, FVal.s "job (3h)".data),
         (kDESC, FVal.s "job".data), (kDATE_END, FVal.s "20230104".data),
         (kEND, FVal.s "VEVENT".data)]).map (fun r => getS r.1 kSUMMARY) =
      some (some "job (5h)".data) ∧
    (step2
        (some [(kDATE_START, FVal.s "20230103".data), (kSUMMARY, FVal.s "job (3h)".data),
               (kDESC, FVal.s "job".data), (kDATE_END, FVal.s "20230104".data),
               (kEND, FVal.s "VEVENT".data)])
        [(kDATE_START, FVal.s "20230103".data), (kSUMMARY, FVal.s "job (2h)".data),
         (kDESC, FVal.s "job".data), (kDATE_END, FVal.s "20230104".data),
         (kEND, FVal.s "VEVENT".data)]).map (fun r => getS r.1 kSUMMARY) =
      some (some "job (5h)".data)) := by
  constructor
  · intro pe ne base ds nd tn endv hsd hdate hs hb hds htn hnd hex hend
    obtain ⟨items0, hitems⟩ : ∃ items0, getF pe kEXTRA = some (FVal.l items0) ∨
        (getF pe kEXTRA = none ∧ items0 = []) := by
      rcases hex with h | ⟨items, h⟩
      · exact ⟨[], Or.inr ⟨h, rfl⟩⟩
      · exact ⟨items, Or.inl h⟩
    have htp := get_time_of_htag hs hb hds
    have hrts : replaced_time_str pe ne = some
        (setF pe kSUMMARY
          (.s (base ++ parenTag (natChars (max 1 (charsToNat ds) + tn)) 'h')), tn) := by
      unfold replaced_time_str
      rw [htn]
      simp only [Option.bind_eq_bind, Option.some_bind]
      rw [htp]
      simp only [Option.some_bind]
      rw [hs]
      simp only [Option.some_bind]
      rw [replacedTimeVal_htag hb hds (max 1 (charsToNat ds) + tn)]
      rfl
    have hx1 : getF (setF pe kSUMMARY
        (.s (base ++ parenTag (natChars (max 1 (charsToNat ds) + tn)) 'h'))) kEXTRA =
        getF pe kEXTRA := getF_setF_ne pe kSUMMARY kEXTRA _ (by decide)
    have hE2end : getF (setF (setF pe kSUMMARY
        (.s (base ++ parenTag (natChars (max 1 (charsToNat ds) + tn)) 'h'))) kEXTRA
        (FVal.l (items0 ++
          ["add time".data ++ ": ".data ++ nd ++ " [".data ++
            (natChars tn ++ "h".data) ++ "]".data]))) kEND = some endv := by
      rw [getF_setF_ne _ _ _ _ (by decide), getF_setF_ne _ _ _ _ (by decide)]
      exact hend
    have hmv : moveToEnd (setF (setF pe kSUMMARY
        (.s (base ++ parenTag (natChars (max 1 (charsToNat ds) + tn)) 'h'))) kEXTRA
        (FVal.l (items0 ++
          ["add time".data ++ ": ".data ++ nd ++ " [".data ++
            (natChars tn ++ "h".data) ++ "]".data]))) kEND = some
        (popF (setF (setF pe kSUMMARY
          (.s (base ++ parenTag (natChars (max 1 (charsToNat ds) + tn)) 'h'))) kEXTRA
          (FVal.l (items0 ++
            ["add time".data ++ ": ".data ++ nd ++ " [".data ++
              (natChars tn ++ "h".data) ++ "]".data]))) kEND ++ [(kEND, endv)]) := by
      unfold moveToEnd
      rw [hE2end]
    have hae : add_extra (setF pe kSUMMARY
        (.s (base ++ parenTag (natChars (max 1 (charsToNat ds) + tn)) 'h')))
        "add time".data nd (natChars tn ++ "h".data) = some
        (popF (setF (setF pe kSUMMARY
          (.s (base ++ parenTag (natChars (max 1 (charsToNat ds) + tn)) 'h'))) kEXTRA
          (FVal.l (items0 ++
            ["add time".data ++ ": ".data ++ nd ++ " [".data ++
              (natChars tn ++ "h".data) ++ "]".data]))) kEND ++ [(kEND, endv)]) := by
      unfold add_extra
      dsimp only []
      rw [hx1]
      rcases hitems with hsome | ⟨hn0, hi0⟩
      · rw [hsome]
        exact hmv
      · subst hi0
        rw [hn0]
        exact hmv
    have hat : add_time pe ne = some
        (popF (setF (setF pe kSUMMARY
          (.s (base ++ parenTag (natChars (max 1 (charsToNat ds) + tn)) 'h'))) kEXTRA
          (FVal.l (items0 ++
            ["add time".data ++ ": ".data ++ nd ++ " [".data ++
              (natChars tn ++ "h".data) ++ "]".data]))) kEND ++ [(kEND, endv)]) := by
      unfold add_time
      rw [hrts]
      simp only [Option.bind_eq_bind, Option.some_bind]
      rw [hnd]
      simp only [Option.some_bind]
      exact hae
    refine ⟨popF (setF (setF pe kSUMMARY
        (.s (base ++ parenTag (natChars (max 1 (charsToNat ds) + tn)) 'h'))) kEXTRA
        (FVal.l (items0 ++
          ["add time".data ++ ": ".data ++ nd ++ " [".data ++
            (natChars tn ++ "h".data) ++ "]".data]))) kEND ++ [(kEND, endv)],
      ?_, ?_, ?_, ⟨items0, hitems, ?_⟩, ?_, ?_, ?_⟩
    · simp only [step2, hsd, hdate, Option.bind_eq_bind, Option.some_bind, if_true]
      rw [hat]
      simp only [Option.some_bind]
      rfl
    · unfold getS
      rw [getF_moveToEnd_ne kSUMMARY hmv (by decide),
        getF_setF_ne _ _ _ _ (by decide), getF_setF_self]
    · rw [get_hours_htag hb (DigitStr_natChars _), charsToNat_natChars]
      omega
    · rw [getF_moveToEnd_ne kEXTRA hmv (by decide), getF_setF_self]
    · intro k h1 h2 h3
      rw [getF_moveToEnd_ne k hmv h3,
        getF_setF_ne _ _ _ _ (fun hc => h2 hc.symm),
        getF_setF_ne _ _ _ _ (fun hc => h1 hc.symm)]
    · rw [getF_moveToEnd_self hmv, hE2end, hend]
    · exact lastKey_moveToEnd hmv
  · constructor
    · decide
    · decide

/-- C3 witness: the amended add-time theorem applied at the concrete 2h
accumulator / 3h incoming pair (base `"job "`, digits `"2"`, incoming
3 hours): the merged summary tag is `(5h)`. -/
theorem C3_witness :
    ∃ pe',
      step2
          (some [(kDATE_START, FVal.s "20230103".data), (kSUMMARY, FVal.s "job (2h)".data),
                 (kDESC, FVal.s "job".data), (kDATE_END, FVal.s "20230104".data),
                 (kEND, FVal.s "VEVENT".data)])
          [(kDATE_START, FVal.s "20230103".data), (kSUMMARY, FVal.s "job (3h)".data),
           (kDESC, FVal.s "job".data), (kDATE_END, FVal.s "20230104".data),
           (kEND, FVal.s "VEVENT".data)] = some (pe', []) ∧
      getS pe' kSUMMARY =
        some ("job ".data ++ parenTag (natChars (max 1 (charsToNat "2".data) + 3)) 'h') ∧
      get_hours ("job ".data ++ parenTag (natChars (max 1 (charsToNat "2".data) + 3)) 'h') =
        max 1 (charsToNat "2".data) + 3 := by
  obtain ⟨pe', h1, h2, h3, _⟩ :=
    C3_add_time.1
      [(kDATE_START, FVal.s "20230103".data), (kSUMMARY, FVal.s "job (2h)".data),
       (kDESC, FVal.s "job".data), (kDATE_END, FVal.s "20230104".data),
       (kEND, FVal.s "VEVENT".data)]
      [(kDATE_START, FVal.s "20230103".data), (kSUMMARY, FVal.s "job (3h)".data),
       (kDESC, FVal.s "job".data), (kDATE_END, FVal.s "20230104".data),
       (kEND, FVal.s "VEVENT".data)]
      "job ".data "2".data "job".data 3 (FVal.s "VEVENT".data)
      (by decide) (by decide) (by decide) (by decide) (by decide) (by decide) (by decide)
      (Or.inl (by decide)) (by decide)
  exact ⟨pe', h1, h2, h3⟩

theorem getS_setF_ne (e : Event) (k k' : Str) (v : FVal) (h : k ≠ k') :
    getS (setF e k v) k' = getS e k' := by
  unfold getS
  rw [getF_setF_ne e k k' v h]

theorem get_last_date_str_of_end {e : Event} {Q : Date}
    (hQ : getF e kDATE_END = some (FVal.s (formatDate Q)))
    (hQv : Q.Valid) (hQm : Q ≠ minDate) :
    get_last_date_str e = some (formatDate (prevDay Q)) := by
  unfold get_last_date_str
  rw [hQ]
  show date_prev_day_str (formatDate Q) = some (formatDate (prevDay Q))
  unfold date_prev_day_str
  rw [parseDate_formatDate Q hQv]
  simp only [Option.bind_eq_bind, Option.some_bind]
  rw [if_neg hQm]

theorem get_last_date_after_date_of_end {e : Event} {Q : Date}
    (hQ : getF e kDATE_END = some (FVal.s (formatDate Q)))
    (hQv : Q.Valid) (hQm : Q ≠ minDate) :
    get_last_date_after_date e = some Q := by
  unfold get_last_date_after_date
  rw [get_last_date_str_of_end hQ hQv hQm]
  simp only [Option.bind_eq_bind, Option.some_bind]
  have h2 : date_next_day_str (formatDate (prevDay Q)) = some (formatDate Q) := by
    unfold date_next_day_str
    rw [parseDate_formatDate _ (prevDay_valid hQv hQm)]
    simp only [Option.bind_eq_bind, Option.some_bind]
    rw [if_neg (prevDay_ne_maxDate hQv), nextDay_prevDay hQv hQm]
  rw [h2]
  simp only [Option.some_bind]
  exact parseDate_formatDate Q hQv

theorem get_days_spaced_tag {base ds : Str} (hb : '(' ∉ base) (hds : DigitStr ds) :
    get_days (base ++ spacedTag ds 'd') = max 1 (charsToNat ds) := by
  show get_num_parenthesis (base ++ spacedTag ds 'd') 'd' = _
  have hsh : base ++ spacedTag ds 'd' = (base ++ [' ']) ++ parenTag ds 'd' := by
    simp [spacedTag]
  rw [hsh]
  refine get_num_parenthesis_tag ?_ hds (by decide)
  intro hmem
  rcases List.mem_append.mp hmem with h1 | h1
  · exact hb h1
  · exact absurd h1 (by decide)

theorem replaceDayVal_tag {base ds : Str} {u0 : Char} (hb : '(' ∉ base) (hds : DigitStr ds)
    (hu0 : u0 ∈ (['h', 'd'] : List Char)) (hund : isDigitC u0 = false) (n : Nat) :
    replaceDayVal (base ++ spacedTag ds u0) ((n : Nat) : Int) =
      base ++ spacedTag (natChars n) 'd' := by
  have hhs : hasSpaced ['h', 'd'] (base ++ spacedTag ds u0) = true := by
    refine hasSpaced_append_right base ?_
    have hh := hasSpaced_tag hds hu0 hund []
    rwa [List.append_nil] at hh
  show (if hasSpaced ['h', 'd'] (base ++ spacedTag ds u0) then
      subSpaced ['h', 'd'] (' ' :: '(' :: intChars ((n : Nat) : Int) ++ ['d', ')'])
        (base ++ spacedTag ds u0)
    else (base ++ spacedTag ds u0) ++
      (' ' :: '(' :: intChars ((n : Nat) : Int) ++ ['d', ')'])) =
    base ++ spacedTag (natChars n) 'd'
  rw [if_pos hhs]
  have hsp := @subSpaced_split ['h', 'd']
      (' ' :: '(' :: intChars ((n : Nat) : Int) ++ ['d', ')']) base ds u0 hb hds hu0 hund []
  rw [List.append_nil] at hsp
  rw [hsp]
  show base ++ (' ' :: '(' :: intChars ((n : Nat) : Int) ++ ['d', ')']) ++ [] = _
  rw [List.append_nil, intChars_ofNat]
  rfl

/-- C2: date-extend merge. Universally: for an accumulator whose summary
carries a `' (Nu)'` duration tag, under the engine's dispatch conditions
(same stripped description, different last date, both full-day, next-eligible)
the merge adopts `E`'s exclusive END (so the accumulator covers through `E`'s
last covered date), rewrites the tag to the inclusive day span from the
accumulator's start through `E`'s last covered date, appends exactly one audit
note, repositions END last and changes nothing else. Concretely: two
same-description events starting 20230103 / 20230104 (default 8h) merge to a
single output with START 20230103, END 20230105 and summary tag `(2d)`. -/
theorem C2_date_extend :
    (∀ (pe ne : Event) (base ds nd nstart : Str) (u0 : Char) (Q SA : Date) (endv : FVal),
      is_same_desc pe ne = some true →
      is_same_date pe ne = some false →
      is_full_day pe = some true →
      is_next_date pe ne = some true →
      is_full_day ne = some true →
      getF ne kDATE_END = some (FVal.s (formatDate Q)) →
      Q.Valid → Q ≠ minDate →
      getS pe kDATE_START = some (formatDate SA) →
      SA.Valid →
      toOrdinal SA < toOrdinal Q →
      getS pe kSUMMARY = some (base ++ spacedTag ds u0) →
      '(' ∉ base →
      DigitStr ds →
      u0 ∈ (['h', 'd'] : List Char) →
      getS ne kDESC = some nd →
      getS ne kDATE_START = some nstart →
      (getF pe kEXTRA = none ∨ ∃ items, getF pe kEXTRA = some (FVal.l items)) →
      getF pe kEND = some endv →
      ∃ pe',
        step2 (some pe) ne = some (pe', []) ∧
        getF pe' kDATE_END = some (FVal.s (formatDate Q)) ∧
        get_last_date_str pe' = get_last_date_str ne ∧
        getS pe' kSUMMARY =
          some (base ++ spacedTag (natChars (toOrdinal Q - toOrdinal SA)) 'd') ∧
        get_days (base ++ spacedTag (natChars (toOrdinal Q - toOrdinal SA)) 'd') =
          toOrdinal Q - toOrdinal SA ∧
        (∃ items0,
          (getF pe kEXTRA = some (FVal.l items0) ∨
            (getF pe kEXTRA = none ∧ items0 = [])) ∧
          getF pe' kEXTRA = some (FVal.l (items0 ++
            ["add date".data ++ ": ".data ++ nd ++ " [".data ++ nstart ++ "]".data]))) ∧
        (∀ k, k ≠ kDATE_END → k ≠ kSUMMARY → k ≠ kEXTRA → k ≠ kEND →
          getF pe' k = getF pe k) ∧
        getF pe' kEND = getF pe kEND ∧
        lastKey pe' = some kEND) ∧
    ((processEvents none
        [[("BEGIN".data, FVal.s "VEVENT".data),
          (kDATE_START, FVal.s "20230103".data),
          (kSUMMARY, FVal.s "(remote) project work".data),
          (kDESC, FVal.s "task".data),
          (kDATE_END, FVal.s "20230104".data),
          (kEND, FVal.s "VEVENT".data)],
         [("BEGIN".data, FVal.s "VEVENT".data),
          (kDATE_START, FVal.s "20230104".data),
          (kSUMMARY, FVal.s "(remote) project work".data),
          (kDESC, FVal.s "task".data),
          (kDATE_END, FVal.s "20230105".data),
          (kEND, FVal.s "VEVENT".data)]]).map
        (fun r => (r.1).map (fun acc => getS acc kSUMMARY)) =
      some (some (some "(remote) project work (2d)".data)) ∧
    (processEvents none
        [[("BEGIN".data, FVal.s "VEVENT".data),
          (kDATE_START, FVal.s "20230103".data),
          (kSUMMARY, FVal.s "(remote) project work".data),
          (kDESC, FVal.s "task".data),
          (kDATE_END, FVal.s "20230104".data),
          (kEND, FVal.s "VEVENT".data)],
         [("BEGIN".data, FVal.s "VEVENT".data),
          (kDATE_START, FVal.s "20230104".data),
          (kSUMMARY, FVal.s "(remote) project work".data),
          (kDESC, FVal.s "task".data),
          (kDATE_END, FVal.s "20230105".data),
          (kEND, FVal.s "VEVENT".data)]]).map
        (fun r => List.length r.2) = some 0 ∧
    get_days "(remote) project work (2d)".data = 2 ∧
    (runEngine
        [[("BEGIN".data, FVal.s "VEVENT".data),
          (kDATE_START, FVal.s "20230103".data),
          (kSUMMARY, FVal.s "(remote) project work".data),
          (kDESC, FVal.s "task".data),
          (kDATE_END, FVal.s "20230104".data),
          (kEND, FVal.s "VEVENT".data)],
         [("BEGIN".data, FVal.s "VEVENT".data),
          (kDATE_START, FVal.s "20230104".data),
          (kSUMMARY, FVal.s "(remote) project work".data),
          (kDESC, FVal.s "task".data),
          (kDATE_END, FVal.s "20230105".data),
          (kEND, FVal.s "VEVENT".data)]]).map
        (fun l => l.map (fun pr => printedGet pr kDATE_START)) =
      some [some "20230103".data] ∧
    (runEngine
        [[("BEGIN".data, FVal.s "VEVENT".data),
          (kDATE_START, FVal.s "20230103".data),
          (kSUMMARY, FVal.s "(remote) project work".data),
          (kDESC, FVal.s "task".data),
          (kDATE_END, FVal.s "20230104".data),
          (kEND, FVal.s "VEVENT".data)],
         [("BEGIN".data, FVal.s "VEVENT".data),
          (kDATE_START, FVal.s "20230104".data),
          (kSUMMARY, FVal.s "(remote) project work".data),
          (kDESC, FVal.s "task".data),
          (kDATE_END, FVal.s "20230105".data),
          (kEND, FVal.s "VEVENT".data)]]).map
        (fun l => l.map (fun pr => printedGet pr kDATE_END)) =
      some [some "20230105".data]) := by
  constructor
  · intro pe ne base ds nd nstart u0 Q SA endv
    intro hsd hdate hfd1 hnx hfd2 hQ hQv hQm hSA hSAv hQSA hsum hb hds hu0 hnd hnstart hex hend
    have hund : isDigitC u0 = false := by
      have hu2 : u0 = 'h' ∨ u0 = 'd' := by simpa using hu0
      rcases hu2 with h | h
      · subst h; decide
      · subst h; decide
    obtain ⟨items0, hitems⟩ : ∃ items0, getF pe kEXTRA = some (FVal.l items0) ∨
        (getF pe kEXTRA = none ∧ items0 = []) := by
      rcases hex with h | ⟨items, h⟩
      · exact ⟨[], Or.inr ⟨h, rfl⟩⟩
      · exact ⟨items, Or.inl h⟩
    have hglad : get_last_date_after_date ne = some Q :=
      get_last_date_after_date_of_end hQ hQv hQm
    have hpd : get_date_date (setF pe kDATE_END (FVal.s (formatDate Q))) = some SA := by
      unfold get_date_date get_date_str
      rw [getS_setF_ne _ _ _ _ (by decide), hSA]
      simp only [Option.bind_eq_bind, Option.some_bind]
      exact parseDate_formatDate SA hSAv
    have hsum0 : getS (setF pe kDATE_END (FVal.s (formatDate Q))) kSUMMARY =
        some (base ++ spacedTag ds u0) := by
      rw [getS_setF_ne _ _ _ _ (by decide)]
      exact hsum
    have hdelta : (toOrdinal Q : Int) - (toOrdinal SA : Int) =
        ((toOrdinal Q - toOrdinal SA : Nat) : Int) := by omega
    have hrds : replace_day_str (setF pe kDATE_END (FVal.s (formatDate Q))) ne = some
        (setF (setF pe kDATE_END (FVal.s (formatDate Q))) kSUMMARY
          (.s (base ++ spacedTag (natChars (toOrdinal Q - toOrdinal SA)) 'd')), nstart) := by
      unfold replace_day_str
      rw [hglad]
      simp only [Option.bind_eq_bind, Option.some_bind]
      rw [hpd]
      simp only [Option.some_bind]
      rw [hsum0]
      simp only [Option.some_bind]
      rw [hdelta, replaceDayVal_tag hb hds hu0 hund (toOrdinal Q - toOrdinal SA)]
      have hns2 : get_date_str ne = some nstart := hnstart
      rw [hns2]
      simp only [Option.some_bind]
      rfl
    have hx1 : getF (setF (setF pe kDATE_END (FVal.s (formatDate Q))) kSUMMARY
        (.s (base ++ spacedTag (natChars (toOrdinal Q - toOrdinal SA)) 'd'))) kEXTRA =
        getF pe kEXTRA := by
      rw [getF_setF_ne _ _ _ _ (by decide), getF_setF_ne _ _ _ _ (by decide)]
    have hE2end : getF (setF (setF (setF pe kDATE_END (FVal.s (formatDate Q))) kSUMMARY
        (.s (base ++ spacedTag (natChars (toOrdinal Q - toOrdinal SA)) 'd'))) kEXTRA
        (FVal.l (items0 ++
          ["add date".data ++ ": ".data ++ nd ++ " [".data ++ nstart ++ "]".data]))) kEND =
        some endv := by
      rw [getF_setF_ne _ _ _ _ (by decide), getF_setF_ne _ _ _ _ (by decide),
        getF_setF_ne _ _ _ _ (by decide)]
      exact hend
    have hmv : moveToEnd (setF (setF (setF pe kDATE_END (FVal.s (formatDate Q))) kSUMMARY
        (.s (base ++ spacedTag (natChars (toOrdinal Q - toOrdinal SA)) 'd'))) kEXTRA
        (FVal.l (items0 ++
          ["add date".data ++ ": ".data ++ nd ++ " [".data ++ nstart ++ "]".data]))) kEND =
        some (popF (setF (setF (setF pe kDATE_END (FVal.s (formatDate Q))) kSUMMARY
          (.s (base ++ spacedTag (natChars (toOrdinal Q - toOrdinal SA)) 'd'))) kEXTRA
          (FVal.l (items0 ++
            ["add date".data ++ ": ".data ++ nd ++ " [".data ++ nstart ++ "]".data]))) kEND ++
          [(kEND, endv)]) := by
      unfold moveToEnd
      rw [hE2end]
    have hae : add_extra (setF (setF pe kDATE_END (FVal.s (formatDate Q))) kSUMMARY
        (.s (base ++ spacedTag (natChars (toOrdinal Q - toOrdinal SA)) 'd')))
        "add date".data nd nstart = some
        (popF (setF (setF (setF pe kDATE_END (FVal.s (formatDate Q))) kSUMMARY
          (.s (base ++ spacedTag (natChars (toOrdinal Q - toOrdinal SA)) 'd'))) kEXTRA
          (FVal.l (items0 ++
            ["add date".data ++ ": ".data ++ nd ++ " [".data ++ nstart ++ "]".data]))) kEND ++
          [(kEND, endv)]) := by
      unfold add_extra
      dsimp only []
      rw [hx1]
      rcases hitems with hsome | ⟨hn0, hi0⟩
      · rw [hsome]
        exact hmv
      · subst hi0
        rw [hn0]
        exact hmv
    have hme : merge_event pe ne = some
        (popF (setF (setF (setF pe kDATE_END (FVal.s (formatDate Q))) kSUMMARY
          (.s (base ++ spacedTag (natChars (toOrdinal Q - toOrdinal SA)) 'd'))) kEXTRA
          (FVal.l (items0 ++
            ["add date".data ++ ": ".data ++ nd ++ " [".data ++ nstart ++ "]".data]))) kEND ++
          [(kEND, endv)]) := by
      unfold merge_event
      rw [hQ]
      simp only [Option.bind_eq_bind, Option.some_bind]
      rw [hrds]
      simp only [Option.some_bind]
      rw [hnd]
      simp only [Option.some_bind]
      exact hae
    have hpeq : getF (popF (setF (setF (setF pe kDATE_END (FVal.s (formatDate Q))) kSUMMARY
        (.s (base ++ spacedTag (natChars (toOrdinal Q - toOrdinal SA)) 'd'))) kEXTRA
        (FVal.l (items0 ++
          ["add date".data ++ ": ".data ++ nd ++ " [".data ++ nstart ++ "]".data]))) kEND ++
        [(kEND, endv)]) kDATE_END = some (FVal.s (formatDate Q)) := by
      rw [getF_moveToEnd_ne kDATE_END hmv (by decide), getF_setF_ne _ _ _ _ (by decide),
        getF_setF_ne _ _ _ _ (by decide), getF_setF_self]
    refine ⟨popF (setF (setF (setF pe kDATE_END (FVal.s (formatDate Q))) kSUMMARY
        (.s (base ++ spacedTag (natChars (toOrdinal Q - toOrdinal SA)) 'd'))) kEXTRA
        (FVal.l (items0 ++
          ["add date".data ++ ": ".data ++ nd ++ " [".data ++ nstart ++ "]".data]))) kEND ++
        [(kEND, endv)],
      ?_, hpeq, ?_, ?_, ?_, ⟨items0, hitems, ?_⟩, ?_, ?_, ?_⟩
    · simp only [step2, hsd, hdate, hfd1, hnx, hfd2, Option.bind_eq_bind, Option.some_bind,
        if_true, Bool.false_eq_true, if_false]
      rw [hme]
      simp only [Option.some_bind]
      rfl
    · rw [get_last_date_str_of_end hpeq hQv hQm, get_last_date_str_of_end hQ hQv hQm]
    · unfold getS
      rw [getF_moveToEnd_ne kSUMMARY hmv (by decide), getF_setF_ne _ _ _ _ (by decide),
        getF_setF_self]
    · rw [get_days_spaced_tag hb (DigitStr_natChars _), charsToNat_natChars]
      omega
    · rw [getF_moveToEnd_ne kEXTRA hmv (by decide), getF_setF_self]
    · intro k h0 h1 h2 h3
      rw [getF_moveToEnd_ne k hmv h3,
        getF_setF_ne _ _ _ _ (fun hc => h2 hc.symm),
        getF_setF_ne _ _ _ _ (fun hc => h1 hc.symm),
        getF_setF_ne _ _ _ _ (fun hc => h0 hc.symm)]
    · rw [getF_moveToEnd_self hmv, hE2end, hend]
    · exact lastKey_moveToEnd hmv
  · refine ⟨by decide, by decide, by decide, by decide, by decide⟩

/-- C2 witness: the date-extend theorem applied at a concrete tagged
accumulator (`"job (1d)"`, 20230103 → exclusive end 20230104) and incoming
event (20230104 → exclusive end 20230105): the merged summary tag becomes
`(2d)` and the END becomes 20230105. -/
theorem C2_witness :
    ∃ pe',
      step2
          (some [("BEGIN".data, FVal.s "VEVENT".data),
                 (kDATE_START, FVal.s "20230103".data),
                 (kSUMMARY, FVal.s "job (1d)".data),
                 (kDESC, FVal.s "task".data),
                 (kDATE_END, FVal.s "20230104".data),
                 (kEND, FVal.s "VEVENT".data)])
          [("BEGIN".data, FVal.s "VEVENT".data),
           (kDATE_START, FVal.s "20230104".data),
           (kSUMMARY, FVal.s "job (1d)".data),
           (kDESC, FVal.s "task".data),
           (kDATE_END, FVal.s "20230105".data),
           (kEND, FVal.s "VEVENT".data)] = some (pe', []) ∧
      getF pe' kDATE_END = some (FVal.s (formatDate ⟨2023, 1, 5⟩)) ∧
      getS pe' kSUMMARY = some ("job".data ++
        spacedTag (natChars (toOrdinal ⟨2023, 1, 5⟩ - toOrdinal ⟨2023, 1, 3⟩)) 'd') ∧
      get_days ("job".data ++
        spacedTag (natChars (toOrdinal ⟨2023, 1, 5⟩ - toOrdinal ⟨2023, 1, 3⟩)) 'd') =
        toOrdinal ⟨2023, 1, 5⟩ - toOrdinal ⟨2023, 1, 3⟩ := by
  obtain ⟨pe', h1, h2, _, h3, h4, _⟩ :=
    C2_date_extend.1
      [("BEGIN".data, FVal.s "VEVENT".data),
       (kDATE_START, FVal.s "20230103".data),
       (kSUMMARY, FVal.s "job (1d)".data),
       (kDESC, FVal.s "task".data),
       (kDATE_END, FVal.s "20230104".data),
       (kEND, FVal.s "VEVENT".data)]
      [("BEGIN".data, FVal.s "VEVENT".data),
       (kDATE_START, FVal.s "20230104".data),
       (kSUMMARY, FVal.s "job (1d)".data),
       (kDESC, FVal.s "task".data),
       (kDATE_END, FVal.s "20230105".data),
       (kEND, FVal.s "VEVENT".data)]
      "job".data "1".data "task".data "20230104".data 'd' ⟨2023, 1, 5⟩ ⟨2023, 1, 3⟩
      (FVal.s "VEVENT".data)
      (by decide) (by decide) (by decide) (by decide) (by decide) (by decide) (by decide)
      (by decide) (by decide) (by decide) (by decide) (by decide) (by decide) (by decide)
      (by decide) (by decide) (by decide) (Or.inl (by decide)) (by decide)
  exact ⟨pe', h1, h2, h3, h4⟩

theorem clean_both_instants_anomaly {ist ien : Date × Nat × Nat × Nat} {e3 : Event}
    {d0 h0 : Int} {S D : Str}
    (hdh : elapsedDaysHours (instantSecs ien - instantSecs ist) = (d0, h0))
    (h9 : 9 < h0) (hd0 : 0 ≤ d0)
    (hs : getS e3 kSUMMARY = some S) (hd : getS e3 kDESC = some D) :
    clean_both_instants ist ien e3 = some
      (setF (setF (setF (setF e3 kSUMMARY (.s (S ++ "?".data))) kDESC
        (.s (D ++ " hours: ".data ++ intChars h0))) kSUMMARY
        (.s (replaceDayVal (S ++ "?".data) (d0 + 2)))) kDESC
        (.s (replaceDayVal (D ++ " hours: ".data ++ intChars h0) (d0 + 2))),
      [wMore9, wHourly]) := by
  have hadj : adjustWholeDay (d0, h0) = (d0 + 1, h0, true) := by
    show (if 7 ≤ (d0, h0).2 then
        if 9 < (d0, h0).2 then ((d0, h0).1 + 1, (d0, h0).2, true)
        else ((d0, h0).1 + 1, 0, false)
      else ((d0, h0).1, (d0, h0).2, false)) = (d0 + 1, h0, true)
    rw [if_pos (show 7 ≤ (d0, h0).2 by show 7 ≤ h0; omega),
      if_pos (show 9 < (d0, h0).2 from h9)]
  unfold clean_both_instants
  dsimp only []
  rw [hdh, hadj]
  dsimp only []
  rw [if_pos rfl, if_pos (show 0 < d0 + 1 by omega), if_pos (show 0 < h0 by omega)]
  rw [hs]
  simp only [Option.bind_eq_bind, Option.some_bind]
  rw [hd]
  simp only [Option.pure_def, Option.some_bind]
  have hgs4 : getS (setF (setF e3 kSUMMARY (.s (S ++ "?".data))) kDESC
      (.s (D ++ " hours: ".data ++ intChars h0))) kSUMMARY = some (S ++ "?".data) := by
    unfold getS
    rw [getF_setF_ne _ _ _ _ (by decide), getF_setF_self]
  rw [hgs4]
  simp only [Option.some_bind]
  have hgd5 : getS (setF (setF (setF e3 kSUMMARY (.s (S ++ "?".data))) kDESC
      (.s (D ++ " hours: ".data ++ intChars h0))) kSUMMARY
      (.s (replaceDayVal (S ++ "?".data) (d0 + 1 + 1)))) kDESC =
      some (D ++ " hours: ".data ++ intChars h0) := by
    unfold getS
    rw [getF_setF_ne _ _ _ _ (by decide), getF_setF_self]
  rw [hgd5]
  simp only [Option.some_bind]
  have harith : d0 + 1 + 1 = d0 + 2 := by omega
  rw [harith]
  rfl

/-- C7: anomaly tolerance. For every event carrying exact start/end instants
whose computed elapsed-hour remainder exceeds 9, `clean_event` does not abort:
it returns the event with both warnings logged, the anomaly surfacing only as
additive annotations (a `?` marker appended to the summary, an
`hours:` diagnostic appended to the description, plus the usual day-tag
rewrite); the consumed instant fields are removed and every other field is
untouched. -/
theorem C7_anomaly_tolerance :
    ∀ (e : Event) (vs ve : Str) (ist ien : Date × Nat × Nat × Nat) (d0 h0 : Int)
      (S D : Str),
      hasF e kDATE_END = true →
      getF e kORIG_DATE_START = some (FVal.s vs) →
      parseInstant vs = some ist →
      getF e kORIG_DATE_END = some (FVal.s ve) →
      parseInstant ve = some ien →
      elapsedDaysHours (instantSecs ien - instantSecs ist) = (d0, h0) →
      9 < h0 → 0 ≤ d0 →
      getS e kSUMMARY = some S →
      getS e kDESC = some D →
      ∃ e',
        clean_event e = some (e', [wMore9, wHourly]) ∧
        getS e' kSUMMARY = some (replaceDayVal (S ++ "?".data) (d0 + 2)) ∧
        getS e' kDESC =
          some (replaceDayVal (D ++ " hours: ".data ++ intChars h0) (d0 + 2)) ∧
        getF e' kORIG_DATE_START = none ∧
        getF e' kORIG_DATE_END = none ∧
        (∀ k, k ≠ kSUMMARY → k ≠ kDESC → k ≠ kORIG_DATE_START → k ≠ kORIG_DATE_END →
          getF e' k = getF e k) := by
  intro e vs ve ist ien d0 h0 S D hE ho1 hps ho2 hpe hdh h9 hd0 hs hd
  have hc1 : clean_default_end e = some e := by
    unfold clean_default_end
    rw [hE]
    rfl
  have hto1 : clean_take_orig kORIG_DATE_START e =
      some (some ist, popF e kORIG_DATE_START) := by
    unfold clean_take_orig
    rw [ho1]
    show (parseInstant vs).bind (fun i => pure (some i, popF e kORIG_DATE_START)) = _
    rw [hps]
    rfl
  have hgo2 : getF (popF e kORIG_DATE_START) kORIG_DATE_END = some (FVal.s ve) := by
    rw [getF_popF_ne _ _ _ (by decide)]
    exact ho2
  have hto2 : clean_take_orig kORIG_DATE_END (popF e kORIG_DATE_START) =
      some (some ien, popF (popF e kORIG_DATE_START) kORIG_DATE_END) := by
    unfold clean_take_orig
    rw [hgo2]
    show (parseInstant ve).bind
      (fun i => pure (some i, popF (popF e kORIG_DATE_START) kORIG_DATE_END)) = _
    rw [hpe]
    rfl
  have hs3 : getS (popF (popF e kORIG_DATE_START) kORIG_DATE_END) kSUMMARY = some S := by
    unfold getS
    rw [getF_popF_ne _ _ _ (by decide), getF_popF_ne _ _ _ (by decide)]
    unfold getS at hs
    exact hs
  have hd3 : getS (popF (popF e kORIG_DATE_START) kORIG_DATE_END) kDESC = some D := by
    unfold getS
    rw [getF_popF_ne _ _ _ (by decide), getF_popF_ne _ _ _ (by decide)]
    unfold getS at hd
    exact hd
  have hboth := clean_both_instants_anomaly hdh h9 hd0 hs3 hd3
  refine ⟨setF (setF (setF (setF (popF (popF e kORIG_DATE_START) kORIG_DATE_END)
      kSUMMARY (.s (S ++ "?".data))) kDESC
      (.s (D ++ " hours: ".data ++ intChars h0))) kSUMMARY
      (.s (replaceDayVal (S ++ "?".data) (d0 + 2)))) kDESC
      (.s (replaceDayVal (D ++ " hours: ".data ++ intChars h0) (d0 + 2))),
    ?_, ?_, ?_, ?_, ?_, ?_⟩
  · unfold clean_event
    rw [hc1]
    simp only [Option.bind_eq_bind, Option.some_bind]
    rw [hto1]
    simp only [Option.some_bind]
    rw [hto2]
    simp only [Option.some_bind]
    show clean_instants (some ist) (some ien) (popF (popF e kORIG_DATE_START) kORIG_DATE_END) = _
    unfold clean_instants
    exact hboth
  · unfold getS
    rw [getF_setF_ne _ _ _ _ (by decide), getF_setF_self]
  · unfold getS
    rw [getF_setF_self]
  · rw [getF_setF_ne _ _ _ _ (by decide), getF_setF_ne _ _ _ _ (by decide),
      getF_setF_ne _ _ _ _ (by decide), getF_setF_ne _ _ _ _ (by decide),
      getF_popF_ne _ _ _ (by decide), getF_popF_self]
  · rw [getF_setF_ne _ _ _ _ (by decide), getF_setF_ne _ _ _ _ (by decide),
      getF_setF_ne _ _ _ _ (by decide), getF_setF_ne _ _ _ _ (by decide),
      getF_popF_self]
  · intro k h1 h2 h3 h4
    rw [getF_setF_ne _ _ _ _ (fun hc => h2 hc.symm),
      getF_setF_ne _ _ _ _ (fun hc => h1 hc.symm),
      getF_setF_ne _ _ _ _ (fun hc => h2 hc.symm),
      getF_setF_ne _ _ _ _ (fun hc => h1 hc.symm),
      getF_popF_ne _ _ _ (fun hc => h4 hc.symm),
      getF_popF_ne _ _ _ (fun hc => h3 hc.symm)]

/-- C7 witness: a 06:00Z → 17:00Z same-day event (11 elapsed hours, beyond
the 9-hour slack) is cleaned without aborting, logging both warnings; the
summary gains the `?` marker and day tag, the description the diagnostic
hours note. -/
theorem C7_witness :
    ∃ e',
      clean_event
          [("BEGIN".data, FVal.s "VEVENT".data),
           (kDATE_START, FVal.s "20210720".data),
           (kSUMMARY, FVal.s "work".data),
           (kDESC, FVal.s "task".data),
           (kORIG_DATE_START, FVal.s "20210720T060000Z".data),
           (kORIG_DATE_END, FVal.s "20210720T170000Z".data),
           (kDATE_END, FVal.s "20210721".data),
           (kEND, FVal.s "VEVENT".data)] = some (e', [wMore9, wHourly]) ∧
      getS e' kSUMMARY = some (replaceDayVal ("work".data ++ "?".data) (0 + 2)) ∧
      getS e' kDESC =
        some (replaceDayVal ("task".data ++ " hours: ".data ++ intChars 11) (0 + 2)) := by
  obtain ⟨e', h1, h2, h3, _⟩ :=
    C7_anomaly_tolerance
      [("BEGIN".data, FVal.s "VEVENT".data),
       (kDATE_START, FVal.s "20210720".data),
       (kSUMMARY, FVal.s "work".data),
       (kDESC, FVal.s "task".data),
       (kORIG_DATE_START, FVal.s "20210720T060000Z".data),
       (kORIG_DATE_END, FVal.s "20210720T170000Z".data),
       (kDATE_END, FVal.s "20210721".data),
       (kEND, FVal.s "VEVENT".data)]
      "20210720T060000Z".data "20210720T170000Z".data
      (⟨2021, 7, 20⟩, 6, 0, 0) (⟨2021, 7, 20⟩, 17, 0, 0) 0 11
      "work".data "task".data
      (by decide) (by decide) (by decide) (by decide) (by decide) (by decide)
      (by decide) (by decide) (by decide) (by decide)
  exact ⟨e', h1, h2, h3⟩

/-! ## Lemmas for the description-comparison claim: stripping is invariant
under the digits inside a duration tag -/

theorem digit_run_unique {ds1 ds2 : Str} {c1 c2 : Char} {t1 t2 : Str}
    (h : ds1 ++ c1 :: t1 = ds2 ++ c2 :: t2)
    (h1 : ∀ c ∈ ds1, isDigitC c = true) (h2 : ∀ c ∈ ds2, isDigitC c = true)
    (hc1 : isDigitC c1 = false) (hc2 : isDigitC c2 = false) :
    ds1 = ds2 ∧ c1 = c2 ∧ t1 = t2 := by
  have e1 := takeDigits_digits_append h1 c1 t1 hc1
  have e2 := takeDigits_digits_append h2 c2 t2 hc2
  rw [h, e2] at e1
  have hA : ds2 = ds1 := congrArg Prod.fst e1
  have hB : c2 :: t2 = c1 :: t1 := congrArg Prod.snd e1
  injection hB with hB1 hB2
  exact ⟨hA.symm, hB1.symm, hB2.symm⟩

theorem subSpaced_cons_none {units : List Char} {repl : Str} {c : Char} {cs : Str}
    (h : matchSpaced units (c :: cs) = none) :
    subSpaced units repl (c :: cs) = c :: subSpaced units repl cs := by
  show subSpacedAux units repl (cs.length + 1) (c :: cs) = _
  rw [subSpacedAux_cons, h]
  rfl

theorem subSpaced_cons_some {units : List Char} {repl : Str} {c : Char} {cs r : Str}
    (h : matchSpaced units (c :: cs) = some r) :
    subSpaced units repl (c :: cs) = repl ++ subSpaced units repl r := by
  have hlen := matchSpaced_some_length h
  simp only [List.length_cons] at hlen
  show subSpacedAux units repl (cs.length + 1) (c :: cs) = _
  rw [subSpacedAux_cons, h]
  show repl ++ subSpacedAux units repl cs.length r = _
  rw [subSpacedAux_fuel cs.length r (by omega) cs.length r.length (by omega) (le_refl _)]
  rfl

theorem matchSpaced_boundary {units : List Char} {dsB : Str} {uB : Char} {X Y r : Str}
    (hdsB : DigitStr dsB) (huB : uB ∈ units)
    (hsp : ∀ u ∈ units, u ≠ ' ') (hnd : ∀ u ∈ units, isDigitC u = false)
    (h : matchSpaced units (X ++ spacedTag dsB uB ++ Y) = some r) :
    (∃ ds3 u3 Z, u3 ∈ units ∧ DigitStr ds3 ∧ X = spacedTag ds3 u3 ++ Z ∧
      r = Z ++ spacedTag dsB uB ++ Y) ∨
    (X = [] ∧ r = Y) := by
  obtain ⟨ds3, u3, hu3, hds3, hshape⟩ := matchSpaced_some_shape h
  rw [List.append_assoc] at hshape
  rcases List.append_eq_append_iff.mp hshape with ⟨a2, hA, hD⟩ | ⟨c2, hC, hB⟩
  · rcases a2 with _ | ⟨w, ws⟩
    · rw [List.append_nil] at hA
      rw [List.nil_append] at hD
      refine Or.inl ⟨ds3, u3, [], hu3, hds3, ?_, ?_⟩
      · rw [List.append_nil]
        exact hA.symm
      · rw [List.append_assoc, List.nil_append]
        exact hD.symm
    · have h0 : ' ' :: (parenTag dsB uB ++ Y) = w :: (ws ++ r) := hD
      injection h0 with hw hrest
      rcases X with _ | ⟨c0, X2⟩
      · rw [List.nil_append] at hshape
        have hsh2 : dsB ++ uB :: ')' :: Y = ds3 ++ u3 :: ')' :: r := by
          have h1 := hshape
          simp only [spacedTag, parenTag, List.cons_append, List.append_assoc,
            List.nil_append, List.cons.injEq, true_and] at h1
          exact h1
        obtain ⟨hdse, hce, hte⟩ :=
          digit_run_unique hsh2 hdsB.2 hds3.2 (hnd uB huB) (hnd u3 hu3)
        have htY : Y = r := by
          have h2 := hte
          simp only [List.cons.injEq, true_and] at h2
          exact h2
        exact Or.inr ⟨rfl, htY.symm⟩
      · exfalso
        have h1 : (' ' : Char) = c0 ∧ '(' :: (ds3 ++ [u3, ')']) = X2 ++ w :: ws := by
          have h0a := hA
          simp only [spacedTag, parenTag, List.cons_append, List.cons.injEq] at h0a
          exact h0a
        have h2 := h1.2
        have hwmem : w ∈ '(' :: (ds3 ++ [u3, ')']) := by
          rw [h2]
          exact List.mem_append_right _ (List.mem_cons_self w ws)
        rw [← hw] at hwmem
        rcases List.mem_cons.mp hwmem with h3 | h3
        · exact absurd h3 (by decide)
        · rcases List.mem_append.mp h3 with h4 | h4
          · have h5 := hds3.2 ' ' h4
            exact absurd h5 (by decide)
          · rcases List.mem_cons.mp h4 with h5 | h5
            · exact hsp u3 hu3 h5.symm
            · exact absurd (List.mem_singleton.mp h5) (by decide)
  · refine Or.inl ⟨ds3, u3, c2, hu3, hds3, hC, ?_⟩
    rw [hB, ← List.append_assoc]

theorem subSpaced_congr {units : List Char} {ds1 ds2 : Str} {u1 u2 : Char}
    (hds1 : DigitStr ds1) (hu1 : u1 ∈ units)
    (hds2 : DigitStr ds2) (hu2 : u2 ∈ units)
    (hsp : ∀ u ∈ units, u ≠ ' ') (hnd : ∀ u ∈ units, isDigitC u = false) :
    ∀ (n : Nat) (X Y : Str), X.length ≤ n →
    subSpaced units [] (X ++ spacedTag ds1 u1 ++ Y) =
      subSpaced units [] (X ++ spacedTag ds2 u2 ++ Y) := by
  intro n
  induction n using Nat.strong_induction_on with
  | _ n ih =>
    intro X Y hXn
    rcases X with _ | ⟨c, X'⟩
    · simp only [List.nil_append]
      have h1 : matchSpaced units (' ' :: (parenTag ds1 u1 ++ Y)) = some Y :=
        matchSpaced_tag hds1 hu1 (hnd u1 hu1) Y
      have h2 : matchSpaced units (' ' :: (parenTag ds2 u2 ++ Y)) = some Y :=
        matchSpaced_tag hds2 hu2 (hnd u2 hu2) Y
      show subSpaced units [] (' ' :: (parenTag ds1 u1 ++ Y)) =
        subSpaced units [] (' ' :: (parenTag ds2 u2 ++ Y))
      rw [subSpaced_cons_some h1, subSpaced_cons_some h2]
    · have hn1 : 1 ≤ n := by
        simp only [List.length_cons] at hXn
        omega
      rcases hm1 : matchSpaced units (c :: (X' ++ spacedTag ds1 u1 ++ Y)) with _ | r1
      · rcases hm2 : matchSpaced units (c :: (X' ++ spacedTag ds2 u2 ++ Y)) with _ | r2
        · show subSpaced units [] (c :: (X' ++ spacedTag ds1 u1 ++ Y)) =
            subSpaced units [] (c :: (X' ++ spacedTag ds2 u2 ++ Y))
          rw [subSpaced_cons_none hm1, subSpaced_cons_none hm2,
            ih (n - 1) (by omega) X' Y
              (by simp only [List.length_cons] at hXn; omega)]
        · exfalso
          have hb := matchSpaced_boundary hds2 hu2 hsp hnd
            (show matchSpaced units ((c :: X') ++ spacedTag ds2 u2 ++ Y) = some r2 from hm2)
          rcases hb with ⟨ds3, u3, Z, hu3, hds3, hXeq, hreq⟩ | ⟨hXnil, hrY⟩
          · have hm1' : matchSpaced units ((c :: X') ++ spacedTag ds1 u1 ++ Y) =
                some (Z ++ spacedTag ds1 u1 ++ Y) := by
              rw [hXeq, List.append_assoc, List.append_assoc]
              have := matchSpaced_tag hds3 hu3 (hnd u3 hu3)
                (Z ++ (spacedTag ds1 u1 ++ Y))
              rw [this]
              rw [List.append_assoc]
            have hm1c : matchSpaced units (c :: (X' ++ spacedTag ds1 u1 ++ Y)) =
                some (Z ++ spacedTag ds1 u1 ++ Y) := hm1'
            rw [hm1] at hm1c
            exact Option.noConfusion hm1c
          · exact List.cons_ne_nil c X' hXnil
      · have hb := matchSpaced_boundary hds1 hu1 hsp hnd
          (show matchSpaced units ((c :: X') ++ spacedTag ds1 u1 ++ Y) = some r1 from hm1)
        rcases hb with ⟨ds3, u3, Z, hu3, hds3, hXeq, hreq⟩ | ⟨hXnil, hrY⟩
        · have hm2' : matchSpaced units ((c :: X') ++ spacedTag ds2 u2 ++ Y) =
              some (Z ++ spacedTag ds2 u2 ++ Y) := by
            rw [hXeq, List.append_assoc, List.append_assoc]
            have := matchSpaced_tag hds3 hu3 (hnd u3 hu3)
              (Z ++ (spacedTag ds2 u2 ++ Y))
            rw [this]
            rw [List.append_assoc]
          have hm2c : matchSpaced units (c :: (X' ++ spacedTag ds2 u2 ++ Y)) =
              some (Z ++ spacedTag ds2 u2 ++ Y) := hm2'
          have hZlen : Z.length < n := by
            have hlen := congrArg List.length hXeq
            simp only [spacedTag, parenTag, List.length_cons, List.length_append,
              List.cons_append] at hlen hXn
            omega
          show subSpaced units [] (c :: (X' ++ spacedTag ds1 u1 ++ Y)) =
            subSpaced units [] (c :: (X' ++ spacedTag ds2 u2 ++ Y))
          rw [subSpaced_cons_some hm1, subSpaced_cons_some hm2c, hreq,
            ih Z.length hZlen Z Y (le_refl _)]
        · exact absurd hXnil (List.cons_ne_nil c X')

/-- C6 counterexample: two DESCRIPTION values differing only in an embedded
`' (Nd)'` day tag — `"task (2d)"` vs `"task (3d)"` — are classified as
DIFFERENT activities by the expender variant, whose `get_desc` strips only
hour tags (`' \([0-9]+h\)'`); the merger variant does classify them as the
same. -/
theorem C6_counterexample :
    Exp.is_same_desc
        [(kDESC, FVal.s "task (2d)".data)]
        [(kDESC, FVal.s "task (3d)".data)] = some false ∧
    is_same_desc
        [(kDESC, FVal.s "task (2d)".data)]
        [(kDESC, FVal.s "task (3d)".data)] = some true := by
  decide

/-- C6 (amended): in the merger, any two events whose descriptions differ only
in an embedded `' (Nh)'`/`' (Nd)'` duration tag (arbitrary shared prefix and
suffix, arbitrary digits and unit) are classified as the same activity; in
the expender this invariance holds only for hour tags — a day tag is not
stripped there, so descriptions differing in a `' (Nd)'` tag are classified
as different activities (see the counterexample). -/
theorem C6_strip_invariance :
    (∀ (pe ne : Event) (X Y ds1 ds2 : Str) (u1 u2 : Char),
      DigitStr ds1 → u1 ∈ (['d', 'h'] : List Char) →
      DigitStr ds2 → u2 ∈ (['d', 'h'] : List Char) →
      getS pe kDESC = some (X ++ spacedTag ds1 u1 ++ Y) →
      getS ne kDESC = some (X ++ spacedTag ds2 u2 ++ Y) →
      is_same_desc pe ne = some true) ∧
    (∀ (pe ne : Event) (X Y ds1 ds2 : Str),
      DigitStr ds1 → DigitStr ds2 →
      getS pe kDESC = some (X ++ spacedTag ds1 'h' ++ Y) →
      getS ne kDESC = some (X ++ spacedTag ds2 'h' ++ Y) →
      Exp.is_same_desc pe ne = some true) := by
  constructor
  · intro pe ne X Y ds1 ds2 u1 u2 hds1 hu1 hds2 hu2 hp hn
    unfold is_same_desc get_desc
    rw [hp, hn]
    simp only [Option.map_some', Option.bind_eq_bind, Option.some_bind]
    rw [subSpaced_congr hds1 hu1 hds2 hu2 (by decide) (by decide) X.length X Y (le_refl _)]
    simp
  · intro pe ne X Y ds1 ds2 hds1 hds2 hp hn
    unfold Exp.is_same_desc Exp.get_desc
    rw [hp, hn]
    simp only [Option.map_some', Option.bind_eq_bind, Option.some_bind]
    rw [@subSpaced_congr ['h'] ds1 ds2 'h' 'h' hds1 (by decide) hds2 (by decide)
      (by decide) (by decide) X.length X Y (le_refl _)]
    simp

/-- C6 witness: the merger part applied with a 2-hour vs 5-day tag embedded in
the middle of the description (`"do (2h) work"` vs `"do (5d) work"`), and the
expender part with differing hour tags (`"task (2h)"` vs `"task (10h)"`). -/
theorem C6_witness :
    is_same_desc
        [(kDESC, FVal.s "do (2h) work".data)]
        [(kDESC, FVal.s "do (5d) work".data)] = some true ∧
    Exp.is_same_desc
        [(kDESC, FVal.s "task (2h)".data)]
        [(kDESC, FVal.s "task (10h)".data)] = some true := by
  constructor
  · exact C6_strip_invariance.1
      [(kDESC, FVal.s "do (2h) work".data)]
      [(kDESC, FVal.s "do (5d) work".data)]
      "do".data " work".data "2".data "5".data 'h' 'd'
      (by decide) (by decide) (by decide) (by decide) (by decide) (by decide)
  · exact C6_strip_invariance.2
      [(kDESC, FVal.s "task (2h)".data)]
      [(kDESC, FVal.s "task (10h)".data)]
      "task".data [] "2".data "10".data
      (by decide) (by decide) (by decide) (by decide)

theorem C8_witness :
    (7 ≤ (elapsedDaysHours 28800).2 →
      (adjustWholeDay (elapsedDaysHours 28800)).1 = (elapsedDaysHours 28800).1 + 1) ∧
    (7 ≤ (elapsedDaysHours 28800).2 ∧ (elapsedDaysHours 28800).2 ≤ 9 →
      (adjustWholeDay (elapsedDaysHours 28800)).2.1 = 0 ∧
      (adjustWholeDay (elapsedDaysHours 28800)).2.2 = false) :=
  ⟨(C8_whole_day_rounding 28800).2.1, (C8_whole_day_rounding 28800).2.2.1⟩

end SDWC
